import Mathlib

/-
  A shallow embedding of the editing core of gocui (src/edit.go).

  The Go `View` state is modelled as a structure holding the cell buffer
  (`lines`), the logical cursor (`cx`, `cy`), the viewport origin (`ox`, `oy`),
  the mode flags (`Overwrite`, `Wrap`), the dirty flag (`tainted`), the current
  drawing attributes (`FgColor`, `BgColor`), and the two external collaborators
  used by `MoveCursor`: the visible size (`sizeX`, `sizeY`, Go's `v.Size()`)
  and the logical-to-screen position mapping (`posOnScreen`, Go's
  `v.linesPosOnScreen`, whose error result the source discards).

  Go `int` is modelled as `Int`; fallible primitives return `View × Bool`
  where the boolean is `true` exactly when the Go function returns a non-nil
  `error` ("invalid point").
-/

namespace Gocui

/-- One styled character slot: Go's `cell` struct. Attributes are abstract
naturals (Go `Attribute`). -/
structure cell where
  chr : Char
  fgColor : Nat
  bgColor : Nat
deriving DecidableEq, Repr

/-- The zero value of Go's `cell`, produced by `make([]cell, n)`. -/
def zeroCell : cell := { chr := Char.ofNat 0, fgColor := 0, bgColor := 0 }

/-- The editing-relevant state of Go's `View`, plus the two collaborator
functions `MoveCursor` consumes. -/
structure View where
  lines : List (List cell)
  cx : Int
  cy : Int
  ox : Int
  oy : Int
  Overwrite : Bool
  Wrap : Bool
  tainted : Bool
  FgColor : Nat
  BgColor : Nat
  sizeX : Int
  sizeY : Int
  posOnScreen : Int → Int → Int × Int

/-- The row-clamping prelude of `MoveCursor`: clamp the candidate row into
`[0, len(v.lines)-1]` (Go lines 166-171). -/
def clampRow (v : View) (newY : Int) : Int :=
  let newY1 := if newY ≥ (v.lines.length : Int) then (v.lines.length : Int) - 1 else newY
  if newY1 < 0 then 0 else newY1

/-- The logical-cursor part of `MoveCursor` (Go lines 158-196), for a
non-empty buffer: row clamping, right-edge rollover/clamp, left-edge
rollback/clamp. Returns the new `(cx, cy)`. -/
def moveCursorPos (v : View) (dx dy : Int) : Int × Int :=
  let newX := v.cx + dx
  let newY := clampRow v (v.cy + dy)
  let line := v.lines.getD newY.toNat []
  let p :=
    if newX > (line.length : Int) then
      if dy = 0 ∧ newY + 1 < (v.lines.length : Int) then ((0 : Int), newY + 1)
      else ((line.length : Int), newY)
    else (newX, newY)
  if p.1 < 0 then
    if p.2 > 0 then (((v.lines.getD (p.2 - 1).toNat []).length : Int), p.2 - 1)
    else ((0 : Int), p.2)
  else p

/-- Vertical viewport adjustment of `MoveCursor` (Go lines 202-207): `nys` is
the cursor's screen row, `maxY` the visible height. -/
def adjustOy (v : View) (nys maxY : Int) : Int :=
  let oy1 := if nys > v.oy + maxY - 1 then nys - maxY + 1 else v.oy
  if nys < oy1 then nys else oy1

/-- Horizontal viewport adjustment of `MoveCursor` (Go lines 209-226): only
performed when `Wrap` is off; keeps a look-behind preview of up to 2 columns
when scrolling left. -/
def adjustOx (v : View) (nxs maxX : Int) : Int :=
  if v.Wrap then v.ox
  else
    let ox1 := if nxs > v.ox + maxX - 1 then nxs - maxX + 1 else v.ox
    let prevSize : Int :=
      if maxX > 2 ∧ 0 ≤ nxs - 2 then 2
      else if maxX > 1 ∧ 0 ≤ nxs - 1 then 1
      else 0
    if nxs - prevSize < ox1 then nxs - prevSize else ox1

/-- Go `View.MoveCursor` (lines 157-229): zero-line early exit, logical
cursor resolution, then viewport-offset adjustment driven by the screen
position of the new cursor. -/
def View.MoveCursor (v : View) (dx dy : Int) : View :=
  if v.lines.length = 0 then { v with cx := 0, cy := 0 }
  else
    let p := moveCursorPos v dx dy
    let s := v.posOnScreen p.1 p.2
    { v with cx := p.1, cy := p.2,
             oy := adjustOy v s.2 v.sizeY, ox := adjustOx v s.1 v.sizeX }

/-- The effect of Go's overlapping `copy(l[x+1:], l[x:])`: every slot from
`x+1` on receives the cell one slot to its left; the length is unchanged. -/
def copyShiftRight (l : List cell) (x : Nat) : List cell :=
  l.take (x + 1) ++ (l.drop x).take (l.length - (x + 1))

/-- Go `View.writeRune` (lines 235-269). Marks the buffer tainted, rejects
negative coordinates, grows the line sequence to `y+1` lines, opens a
one-cell gap (insert mode, or a write at/past the line end) or overwrites in
place, and stores the styled cell at `(x, y)`. -/
def View.writeRune (v : View) (x y : Int) (ch : Char) : View × Bool :=
  let v1 : View := { v with tainted := true }
  if x < 0 ∨ y < 0 then (v1, true)
  else
    let nx := x.toNat
    let ny := y.toNat
    let v2 : View :=
      if v1.lines.length ≤ ny
      then { v1 with lines := v1.lines ++ List.replicate (ny - v1.lines.length + 1) [] }
      else v1
    let line := v2.lines.getD ny []
    let lineLen := line.length
    let toInsert : List cell :=
      if lineLen ≤ nx then List.replicate (nx - lineLen + 1) zeroCell
      else if !v2.Overwrite then [zeroCell]
      else []
    let line2 := line ++ toInsert
    let line3 := if !v2.Overwrite || (v2.Overwrite && lineLen ≤ nx + 1)
                 then copyShiftRight line2 nx
                 else line2
    let line4 := line3.set nx { chr := ch, fgColor := v2.FgColor, bgColor := v2.BgColor }
    ({ v2 with lines := v2.lines.set ny line4 }, false)

/-- Go `View.deleteRune` (lines 274-283): marks tainted, rejects out-of-range
points, removes the cell at `(x, y)`. -/
def View.deleteRune (v : View) (x y : Int) : View × Bool :=
  let v1 : View := { v with tainted := true }
  if x < 0 ∨ y < 0 ∨ (v1.lines.length : Int) ≤ y
      ∨ ((v1.lines.getD y.toNat []).length : Int) ≤ x
  then (v1, true)
  else
    let line := v1.lines.getD y.toNat []
    ({ v1 with lines := v1.lines.set y.toNat (line.take x.toNat ++ line.drop (x.toNat + 1)) },
     false)

/-- Go `View.mergeLines` (lines 286-298): marks tainted, rejects a row outside
`[0, len)`, silently does nothing on the last row, otherwise appends row `y+1`
onto row `y` and removes row `y+1`. -/
def View.mergeLines (v : View) (y : Int) : View × Bool :=
  let v1 : View := { v with tainted := true }
  if y < 0 ∨ (v1.lines.length : Int) ≤ y then (v1, true)
  else if y + 1 < (v1.lines.length : Int) then
    let ny := y.toNat
    let merged := v1.lines.getD ny [] ++ v1.lines.getD (ny + 1) []
    let lines1 := v1.lines.set ny merged
    ({ v1 with lines := lines1.take (ny + 1) ++ lines1.drop (ny + 2) }, false)
  else (v1, false)

/-- Go `View.breakLine` (lines 302-326): marks tainted, rejects a row outside
`[0, len)`, splits row `y` at column `x` (or appends a fresh empty row `y+1`
when `x` is at/past the end of row `y`). -/
def View.breakLine (v : View) (x y : Int) : View × Bool :=
  let v1 : View := { v with tainted := true }
  if y < 0 ∨ (v1.lines.length : Int) ≤ y then (v1, true)
  else
    let ny := y.toNat
    let cur := v1.lines.getD ny []
    let lr : List cell × List cell :=
      if x < (cur.length : Int) then (cur.take x.toNat, cur.drop x.toNat)
      else (cur, [])
    ({ v1 with lines := v1.lines.take ny ++ [lr.1, lr.2] ++ v1.lines.drop (ny + 1) }, false)

/-- Go `View.EditWrite` (lines 65-68): write at the cursor, then move right. -/
def View.EditWrite (v : View) (ch : Char) : View :=
  ((v.writeRune v.cx v.cy ch).1).MoveCursor 1 0

/-- Go `View.EditDelete` (lines 114-146): directional delete at the cursor,
with stale-cursor recovery and line merging at line boundaries. -/
def View.EditDelete (v : View) (back : Bool) : View :=
  let x := v.cx
  let y := v.cy
  if y < 0 then v
  else if (v.lines.length : Int) ≤ y then v.MoveCursor (-1) 0
  else if back ∧ x ≤ 0 then
    if y ≤ 0 then v
    else
      let previousLine := v.cy - 1
      let v1 := v.MoveCursor (-1) 0
      (v1.mergeLines previousLine).1
  else if back then
    let d := v.deleteRune (v.cx - 1) v.cy
    if d.2 then d.1 else d.1.MoveCursor (-1) 0
  else if x = ((v.lines.getD y.toNat []).length : Int) then
    (v.mergeLines y).1
  else
    (v.deleteRune v.cx v.cy).1

/-- Go `View.EditNewLine` (lines 149-154): break the line at the cursor, then
place the cursor at column 0 of the next row and reset the horizontal offset. -/
def View.EditNewLine (v : View) : View :=
  let v1 := (v.breakLine v.cx v.cy).1
  { v1 with ox := 0, cy := v1.cy + 1, cx := 0 }

/-- Modelled from the spec: `View.SetCursor` lives outside src/edit.go (only
its caller `EditGotoToEndOfLine` is in the source). The spec describes the
explicit cursor set as "subject to the same bounds clamping as `moveCursor`":
on an empty buffer the cursor snaps to the origin; otherwise the row is
clamped into `[0, lineCount-1]` and the column into `[0, rowLength]`. -/
def View.SetCursor (v : View) (x y : Int) : View :=
  if v.lines.length = 0 then { v with cx := 0, cy := 0 }
  else
    let ny := if y ≥ (v.lines.length : Int) then (v.lines.length : Int) - 1
              else if y < 0 then 0 else y
    let len := ((v.lines.getD ny.toNat []).length : Int)
    let nx := if x > len then len else if x < 0 then 0 else x
    { v with cx := nx, cy := ny }

/-- The `for x > 0` loop of Go `EditGotoToStartOfLine`, as a fuelled loop:
each iteration is one `MoveCursor(-1, 0)`. A single left move strictly
decreases a positive `cx`, so `cx.toNat` iterations always reach the exit
condition; the packaged fuel below is one more than that. -/
def gotoStartLoop : Nat → View → View
  | 0, v => v
  | Nat.succ n, v => if v.cx > 0 then gotoStartLoop n (v.MoveCursor (-1) 0) else v

/-- Go `View.EditGotoToStartOfLine` (lines 85-91). -/
def View.EditGotoToStartOfLine (v : View) : View :=
  gotoStartLoop (v.cx.toNat + 1) v

/-- The `for prevX != x` loop of Go `EditGotoToEndOfLine` (lines 100-105), as
a fuelled loop: while the previous column differs from the current one, record
the column and take one `MoveCursor(1, 0)` step. -/
def gotoEndLoop : Nat → Int → View → View
  | 0, _, v => v
  | Nat.succ n, prevX, v =>
    if prevX ≠ v.cx then gotoEndLoop n v.cx (v.MoveCursor 1 0) else v

/-- An upper bound on the iterations of the `EditGotoToEndOfLine` loop in any
run on which the Go loop terminates: a rightward move either advances the
column within a row (at most `length + 1` distinct columns per row), rolls
over to column 0 of the next row (at most `lineCount` times), or leaves the
cursor fixed (which exits the loop). -/
def gotoEndFuel (v : View) : Nat :=
  v.lines.foldr (fun l n => l.length + 1 + n) 0 + v.lines.length + v.cx.toNat + 2

/-- Go `View.EditGotoToEndOfLine` (lines 94-110): probe one row down with
`SetCursor`; if the row did not change we are on the last row and saturate
rightwards, otherwise one left move lands at the end of the original row. -/
def View.EditGotoToEndOfLine (v : View) : View :=
  let y := v.cy
  let v1 := v.SetCursor 0 (y + 1)
  if v1.cy = y then gotoEndLoop (gotoEndFuel v1) (-1) v1
  else v1.MoveCursor (-1) 0

/-- The `for x > 0` loop of Go `EditDeleteToStartOfLine` (lines 77-80), as a
fuelled loop: each iteration is one backward `EditDelete`. On the states this
loop visits a backward delete strictly decreases a positive `cx`, so the
packaged fuel of `cx.toNat + 1` always suffices. -/
def deleteToStartLoop : Nat → View → View
  | 0, v => v
  | Nat.succ n, v => if v.cx > 0 then deleteToStartLoop n (v.EditDelete true) else v

/-- Go `View.EditDeleteToStartOfLine` (lines 71-82). -/
def View.EditDeleteToStartOfLine (v : View) : View :=
  if v.cx = 0 then v.EditDelete true
  else deleteToStartLoop (v.cx.toNat + 1) v

/-- The abstract key codes dispatched by `simpleEditor`. The `Key` type itself
is external to src/edit.go; its constructors follow the spec's enumeration
(space, two backspace variants, delete, insert, enter, tab, escape, the four
arrows), with `KeyOther` standing for every remaining key code. -/
inductive Key where
  | KeySpace
  | KeyBackspace
  | KeyBackspace2
  | KeyDelete
  | KeyInsert
  | KeyEnter
  | KeyArrowDown
  | KeyArrowUp
  | KeyArrowLeft
  | KeyArrowRight
  | KeyTab
  | KeyEsc
  | KeyOther
deriving DecidableEq

/-- Go `simpleEditor` (lines 30-62): the default key dispatch. Modifier bits
are modelled as a `Nat` bit-set. -/
def simpleEditor (v : View) (key : Key) (ch : Char) (m : Nat) : View :=
  if ch ≠ Char.ofNat 0 ∧ m = 0 then v.EditWrite ch
  else
    match key with
    | Key.KeySpace => v.EditWrite ' '
    | Key.KeyBackspace => v.EditDelete true
    | Key.KeyBackspace2 => v.EditDelete true
    | Key.KeyDelete => v.EditDelete false
    | Key.KeyInsert => { v with Overwrite := !v.Overwrite }
    | Key.KeyEnter => v.EditNewLine
    | Key.KeyArrowDown => v.MoveCursor 0 1
    | Key.KeyArrowUp => v.MoveCursor 0 (-1)
    | Key.KeyArrowLeft => v.MoveCursor (-1) 0
    | Key.KeyArrowRight => v.MoveCursor 1 0
    | Key.KeyTab => v.EditWrite (Char.ofNat 9)
    | Key.KeyEsc => v
    | Key.KeyOther => v.EditWrite ch

/-- The seven exposed editing operations of the claim set, as one syntax. -/
inductive Op where
  | write (ch : Char)
  | delete (back : Bool)
  | newline
  | move (dx dy : Int)
  | gotoStart
  | gotoEnd
  | deleteToStart

/-- Interpretation of one exposed operation on a view. -/
def applyOp (v : View) : Op → View
  | Op.write ch => v.EditWrite ch
  | Op.delete b => v.EditDelete b
  | Op.newline => v.EditNewLine
  | Op.move dx dy => v.MoveCursor dx dy
  | Op.gotoStart => v.EditGotoToStartOfLine
  | Op.gotoEnd => v.EditGotoToEndOfLine
  | Op.deleteToStart => v.EditDeleteToStartOfLine

/-- Run a sequence of exposed operations left to right. -/
def runOps (v : View) : List Op → View
  | [] => v
  | op :: ops => runOps (applyOp v op) ops

/-- The cursor-bounds invariant exactly as the spec states it:
`0 ≤ cursorRow < max(1, lineCount)` and
`0 ≤ cursorColumn ≤ length(line[cursorRow])`, the row's line being the
conceptual empty line when it does not exist. -/
def ClaimedBounds (v : View) : Prop :=
  0 ≤ v.cy ∧ v.cy < max 1 (v.lines.length : Int) ∧
    0 ≤ v.cx ∧ v.cx ≤ ((v.lines.getD v.cy.toNat []).length : Int)

instance (v : View) : Decidable (ClaimedBounds v) := by
  unfold ClaimedBounds; infer_instance

/-- The cursor-bounds invariant the code actually maintains: the cursor is
non-negative; on a non-empty buffer it is in bounds, and on an empty buffer
the column is 0 while the row may exceed 0 (it counts `EditNewLine` calls
made against the empty buffer). -/
def BoundsInv (v : View) : Prop :=
  0 ≤ v.cx ∧ 0 ≤ v.cy ∧
    (if v.lines = [] then v.cx = 0
     else v.cy < (v.lines.length : Int)
       ∧ v.cx ≤ ((v.lines.getD v.cy.toNat []).length : Int))

instance (v : View) : Decidable (BoundsInv v) := by
  unfold BoundsInv; infer_instance

/-- A concrete view for witnesses and counterexamples: identity screen
mapping, an 80×24 viewport, insert mode, no wrapping. -/
def mkView (lines : List (List cell)) (cx cy : Int) : View :=
  { lines := lines, cx := cx, cy := cy, ox := 0, oy := 0,
    Overwrite := false, Wrap := false, tainted := false,
    FgColor := 7, BgColor := 0, sizeX := 80, sizeY := 24,
    posOnScreen := fun a b => (a, b) }

/-- A concrete cell holding a given character, with the default style. -/
def mkCell (c : Char) : cell := { chr := c, fgColor := 7, bgColor := 0 }

/-- The line produced by `writeRune` at the written row, as a function of the
original line, the column, the Overwrite flag and the written cell: replace in
place when overwriting inside the line, otherwise open a one-cell gap at the
column, padding with zero cells when the column is past the end. -/
def writtenLine (line : List cell) (nx : Nat) (o : Bool) (c : cell) : List cell :=
  if o = true ∧ nx < line.length then line.set nx c
  else line.take nx ++ List.replicate (nx - line.length) zeroCell ++ c :: line.drop nx

def cex8 : View := mkView [[mkCell 'a']] 3 7

def cex3 : View :=
  { mkView [[mkCell 'a']] 0 0 with Wrap := true, ox := 5, sizeX := 10, sizeY := 10 }

def cex2 : View := { mkView [[mkCell 'a', mkCell 'b', mkCell 'c']] 1 0 with Overwrite := true }

theorem MoveCursor_lines (v : View) (dx dy : Int) : (v.MoveCursor dx dy).lines = v.lines := by
  unfold View.MoveCursor; split <;> rfl

/-- C9: `simpleEditor` invoked with the escape key and character 0 leaves the
view completely unchanged — in particular it does not fall through to character
insertion. -/
theorem spec_C9_escape_noop (v : View) (m : Nat) :
    simpleEditor v Key.KeyEsc (Char.ofNat 0) m = v := by
  simp [simpleEditor]

theorem writeRune_tainted (v : View) (x y : Int) (ch : Char) :
    (v.writeRune x y ch).1.tainted = true := by
  unfold View.writeRune
  dsimp only
  split
  · rfl
  · split <;> rfl

theorem writeRune_err_iff (v : View) (x y : Int) (ch : Char) :
    (v.writeRune x y ch).2 = true ↔ (x < 0 ∨ y < 0) := by
  unfold View.writeRune
  dsimp only
  split
  · simp_all
  · simp_all

theorem writeRune_err_lines (v : View) (x y : Int) (ch : Char)
    (h : (v.writeRune x y ch).2 = true) : (v.writeRune x y ch).1.lines = v.lines := by
  have hxy : x < 0 ∨ y < 0 := (writeRune_err_iff v x y ch).mp h
  unfold View.writeRune
  dsimp only
  rw [if_pos hxy]



theorem deleteRune_tainted (v : View) (x y : Int) :
    (v.deleteRune x y).1.tainted = true := by
  unfold View.deleteRune; dsimp only; split <;> rfl

theorem deleteRune_err_lines (v : View) (x y : Int)
    (h : (v.deleteRune x y).2 = true) : (v.deleteRune x y).1.lines = v.lines := by
  unfold View.deleteRune at *; dsimp only at *
  split at h
  · rw [if_pos (by assumption)]
  · simp at h

theorem mergeLines_tainted (v : View) (y : Int) :
    (v.mergeLines y).1.tainted = true := by
  unfold View.mergeLines; dsimp only; split
  · rfl
  · split <;> rfl

theorem mergeLines_err_lines (v : View) (y : Int)
    (h : (v.mergeLines y).2 = true) : (v.mergeLines y).1.lines = v.lines := by
  unfold View.mergeLines at *; dsimp only at *
  split at h
  · rw [if_pos (by assumption)]
  · split at h <;> simp at h

theorem breakLine_tainted (v : View) (x y : Int) :
    (v.breakLine x y).1.tainted = true := by
  unfold View.breakLine; dsimp only; split <;> rfl

theorem breakLine_err_lines (v : View) (x y : Int)
    (h : (v.breakLine x y).2 = true) : (v.breakLine x y).1.lines = v.lines := by
  unfold View.breakLine at *; dsimp only at *
  split at h
  · rw [if_pos (by assumption)]
  · simp at h

/-- C10: each of the four edit primitives `writeRune`, `deleteRune`,
`mergeLines` and `breakLine` sets the dirty (tainted) flag on every call, and a
call that reports an invalid-point error leaves the line contents unchanged. -/
theorem spec_C10_taint (v : View) (x y : Int) (ch : Char) :
    ((v.writeRune x y ch).1.tainted = true
      ∧ ((v.writeRune x y ch).2 = true → (v.writeRune x y ch).1.lines = v.lines))
  ∧ ((v.deleteRune x y).1.tainted = true
      ∧ ((v.deleteRune x y).2 = true → (v.deleteRune x y).1.lines = v.lines))
  ∧ ((v.mergeLines y).1.tainted = true
      ∧ ((v.mergeLines y).2 = true → (v.mergeLines y).1.lines = v.lines))
  ∧ ((v.breakLine x y).1.tainted = true
      ∧ ((v.breakLine x y).2 = true → (v.breakLine x y).1.lines = v.lines)) :=
  ⟨⟨writeRune_tainted v x y ch, writeRune_err_lines v x y ch⟩,
   ⟨deleteRune_tainted v x y, deleteRune_err_lines v x y⟩,
   ⟨mergeLines_tainted v y, mergeLines_err_lines v y⟩,
   ⟨breakLine_tainted v x y, breakLine_err_lines v x y⟩⟩

/-- C10 witness: a failing `writeRune` at a negative column still sets the
dirty flag and leaves the buffer unchanged. -/
theorem spec_C10_witness :
    ((mkView [] 0 0).writeRune (-1) 0 'a').2 = true
    ∧ ((mkView [] 0 0).writeRune (-1) 0 'a').1.tainted = true
    ∧ ((mkView [] 0 0).writeRune (-1) 0 'a').1.lines = (mkView [] 0 0).lines :=
  ⟨by decide, (spec_C10_taint (mkView [] 0 0) (-1) 0 'a').1.1,
    (spec_C10_taint (mkView [] 0 0) (-1) 0 'a').1.2 (by decide)⟩



theorem set_getD_self {l : List (List cell)} {n : Nat} (h : n < l.length) :
    l.set n (l.getD n []) = l := by
  rw [List.getD_eq_getElem _ _ h, List.set_eq_take_cons_drop _ h,
    ← List.drop_eq_getElem_cons h, List.take_append_drop]

theorem mergeLines_merge (v : View) (y : Int) (h0 : 0 ≤ y)
    (h1 : y + 1 < (v.lines.length : Int)) :
    (v.mergeLines y).2 = false
    ∧ (v.mergeLines y).1.lines
        = v.lines.take y.toNat
          ++ [v.lines.getD y.toNat [] ++ v.lines.getD (y.toNat + 1) []]
          ++ v.lines.drop (y.toNat + 2) := by
  have hy : y.toNat < v.lines.length := by omega
  unfold View.mergeLines; dsimp only
  have hg1 : ¬(y < 0 ∨ (v.lines.length : Int) ≤ y) := by omega
  have hg2 : y + 1 < (v.lines.length : Int) := by omega
  rw [if_neg hg1, if_pos hg2]
  refine ⟨rfl, ?_⟩
  dsimp only
  rw [List.set_eq_take_cons_drop _ hy]
  have hlt : (v.lines.take y.toNat).length = y.toNat := by
    simp [List.length_take]; omega
  rw [List.take_append_eq_append_take, List.drop_append_eq_append_drop, hlt]
  have t1 : List.take (y.toNat + 1) (List.take y.toNat v.lines) = List.take y.toNat v.lines :=
    List.take_of_length_le (by rw [hlt]; omega)
  have t2 : List.drop (y.toNat + 2) (List.take y.toNat v.lines) = [] :=
    List.drop_of_length_le (by rw [hlt]; omega)
  have h2 : y.toNat + 1 - y.toNat = 1 := by omega
  have h3 : y.toNat + 2 - y.toNat = 2 := by omega
  rw [t1, t2, h2, h3]
  simp [List.drop_drop]

/-- C6: `mergeLines(y)` returns an invalid-point error exactly when `y < 0`
or `y ≥ lineCount`; on the last line it succeeds and leaves the line sequence
unchanged; when row `y+1` exists it appends that row onto row `y` and removes
it, decreasing the line count by one. -/
theorem spec_C6_mergeLines (v : View) (y : Int) :
    ((v.mergeLines y).2 = true ↔ (y < 0 ∨ (v.lines.length : Int) ≤ y))
  ∧ (0 ≤ y → y + 1 = (v.lines.length : Int) → (v.mergeLines y).1.lines = v.lines)
  ∧ (0 ≤ y → y + 1 < (v.lines.length : Int) →
      (v.mergeLines y).2 = false
      ∧ (v.mergeLines y).1.lines
          = v.lines.take y.toNat
            ++ [v.lines.getD y.toNat [] ++ v.lines.getD (y.toNat + 1) []]
            ++ v.lines.drop (y.toNat + 2)
      ∧ (v.mergeLines y).1.lines.length = v.lines.length - 1) := by
  refine ⟨?_, ?_, ?_⟩
  · unfold View.mergeLines; dsimp only; split
    · next hc => simpa using hc
    · next hc =>
        split
        · simpa using hc
        · simpa using hc
  · intro h0 h1
    unfold View.mergeLines; dsimp only
    have hg1 : ¬(y < 0 ∨ (v.lines.length : Int) ≤ y) := by omega
    have hg2 : ¬(y + 1 < (v.lines.length : Int)) := by omega
    rw [if_neg hg1, if_neg hg2]
  · intro h0 h1
    obtain ⟨he, hl⟩ := mergeLines_merge v y h0 h1
    refine ⟨he, hl, ?_⟩
    rw [hl]
    simp [List.length_append, List.length_take, List.length_drop]
    omega

/-- C6 witness: the merge and the last-line no-op evaluated at a concrete
three-line buffer. -/
theorem spec_C6_witness :
    (((mkView [[mkCell 'a'], [mkCell 'b'], [mkCell 'c']] 0 0).mergeLines 0).2 = false
      ↔ ¬ ((0 : Int) < 0 ∨ (3 : Int) ≤ 0))
    ∧ ((mkView [[mkCell 'a'], [mkCell 'b'], [mkCell 'c']] 0 0).mergeLines 0).1.lines
        = [[mkCell 'a', mkCell 'b'], [mkCell 'c']]
    ∧ (((mkView [[mkCell 'a'], [mkCell 'b'], [mkCell 'c']] 0 0).mergeLines 2).1.lines
        = (mkView [[mkCell 'a'], [mkCell 'b'], [mkCell 'c']] 0 0).lines) := by
  refine ⟨?_, ?_, ?_⟩
  · have h := (spec_C6_mergeLines (mkView [[mkCell 'a'], [mkCell 'b'], [mkCell 'c']] 0 0) 0).1
    decide
  · have h := ((spec_C6_mergeLines (mkView [[mkCell 'a'], [mkCell 'b'], [mkCell 'c']] 0 0) 0).2.2
      (by decide) (by decide)).2.1
    rw [h]; decide
  · exact (spec_C6_mergeLines (mkView [[mkCell 'a'], [mkCell 'b'], [mkCell 'c']] 0 0) 2).2.1
      (by decide) (by decide)



/-- C8 (amended): whenever the cursor row is at or beyond the buffer's line
count, `EditDelete` (in either direction) performs exactly one `MoveCursor(-1, 0)`
— a single leftward cursor move with the usual clamping — and leaves the buffer
lines unchanged. The literal reading "moves the cursor left by one" is refuted:
the clamping can change both coordinates by more than one. -/
theorem spec_C8_amended (v : View) (back : Bool) (h : (v.lines.length : Int) ≤ v.cy) :
    v.EditDelete back = v.MoveCursor (-1) 0 ∧ (v.EditDelete back).lines = v.lines := by
  have h0 : ¬ v.cy < 0 := by omega
  unfold View.EditDelete; dsimp only
  rw [if_neg h0, if_pos h]
  exact ⟨rfl, MoveCursor_lines v (-1) 0⟩


/-- C8 counterexample: with one line and a stale cursor at `(3, 7)`, a
backward `EditDelete` clamps the cursor to `(1, 0)`, which is not one column to
the left of the original position. -/
theorem spec_C8_counterexample :
    ((cex8.lines.length : Int) ≤ cex8.cy)
    ∧ ¬ ((cex8.EditDelete true).cx = cex8.cx - 1 ∧ (cex8.EditDelete true).cy = cex8.cy) := by
  decide

/-- C8 witness: the amended statement evaluated at the concrete stale-cursor
state. -/
theorem spec_C8_witness :
    (cex8.EditDelete false) = cex8.MoveCursor (-1) 0
    ∧ (cex8.EditDelete false).lines = cex8.lines :=
  spec_C8_amended cex8 false (by decide)

theorem adjustOy_bounds (v : View) (nys maxY : Int) (h : 1 ≤ maxY) :
    adjustOy v nys maxY ≤ nys ∧ nys ≤ adjustOy v nys maxY + maxY - 1 := by
  unfold adjustOy; dsimp only; split_ifs <;> omega

theorem adjustOx_bounds (v : View) (nxs maxX : Int) (hw : v.Wrap = false) (h : 1 ≤ maxX) :
    adjustOx v nxs maxX ≤ nxs ∧ nxs ≤ adjustOx v nxs maxX + maxX - 1 := by
  unfold adjustOx; dsimp only
  rw [if_neg (by simp [hw])]
  split_ifs <;> omega

/-- C3 (amended): after every `MoveCursor` on a non-empty buffer, with a
visible height of at least 1 the cursor's mapped screen row lies within
`[oy, oy + sizeY - 1]`; and when Wrap is off, with a visible width of at least
1, the mapped screen column lies within `[ox, ox + sizeX - 1]`. With Wrap on
the horizontal offset is not adjusted at all, and on an empty buffer no offset
is adjusted, which refutes the claim as stated for all Wrap settings. -/
theorem spec_C3_amended (v : View) (dx dy : Int) (h : v.lines ≠ []) (hY : 1 ≤ v.sizeY) :
    ((v.MoveCursor dx dy).oy
        ≤ (v.posOnScreen (v.MoveCursor dx dy).cx (v.MoveCursor dx dy).cy).2
      ∧ (v.posOnScreen (v.MoveCursor dx dy).cx (v.MoveCursor dx dy).cy).2
        ≤ (v.MoveCursor dx dy).oy + v.sizeY - 1)
    ∧ (v.Wrap = false → 1 ≤ v.sizeX →
        (v.MoveCursor dx dy).ox
          ≤ (v.posOnScreen (v.MoveCursor dx dy).cx (v.MoveCursor dx dy).cy).1
        ∧ (v.posOnScreen (v.MoveCursor dx dy).cx (v.MoveCursor dx dy).cy).1
          ≤ (v.MoveCursor dx dy).ox + v.sizeX - 1) := by
  have hne : ¬ v.lines.length = 0 := by simpa using h
  unfold View.MoveCursor
  rw [if_neg hne]
  dsimp only
  exact ⟨adjustOy_bounds v _ v.sizeY hY, fun hw hX => adjustOx_bounds v _ v.sizeX hw hX⟩


/-- C3 counterexample: with Wrap on, `MoveCursor` leaves the horizontal
offset untouched, so a stale `ox = 5` puts the cursor's screen column 1 outside
`[ox, ox + sizeX - 1]`. -/
theorem spec_C3_counterexample :
    ¬ ((cex3.MoveCursor 1 0).ox
        ≤ (cex3.posOnScreen (cex3.MoveCursor 1 0).cx (cex3.MoveCursor 1 0).cy).1) := by
  decide

/-- C3 witness: the amended visibility invariant evaluated at a concrete
non-empty view. -/
theorem spec_C3_witness :
    ((mkView [[mkCell 'a']] 0 0).lines ≠ [] ∧ 1 ≤ (mkView [[mkCell 'a']] 0 0).sizeY)
    ∧ (((mkView [[mkCell 'a']] 0 0).MoveCursor 1 0).oy
        ≤ ((mkView [[mkCell 'a']] 0 0).posOnScreen
            ((mkView [[mkCell 'a']] 0 0).MoveCursor 1 0).cx
            ((mkView [[mkCell 'a']] 0 0).MoveCursor 1 0).cy).2
      ∧ ((mkView [[mkCell 'a']] 0 0).posOnScreen
            ((mkView [[mkCell 'a']] 0 0).MoveCursor 1 0).cx
            ((mkView [[mkCell 'a']] 0 0).MoveCursor 1 0).cy).2
        ≤ ((mkView [[mkCell 'a']] 0 0).MoveCursor 1 0).oy
            + (mkView [[mkCell 'a']] 0 0).sizeY - 1) :=
  ⟨⟨by decide, by decide⟩,
    (spec_C3_amended (mkView [[mkCell 'a']] 0 0) 1 0 (by decide) (by decide)).1⟩



theorem clampRow_bounds (v : View) (y : Int) (h : v.lines ≠ []) :
    0 ≤ clampRow v y ∧ clampRow v y < (v.lines.length : Int) := by
  have hn : 0 < v.lines.length := List.length_pos.mpr h
  unfold clampRow; dsimp only; split_ifs <;> constructor <;> omega

theorem clampRow_eq (v : View) (y : Int) (h : v.lines ≠ []) :
    clampRow v y = max 0 (min y ((v.lines.length : Int) - 1)) := by
  have hn : 0 < v.lines.length := List.length_pos.mpr h
  unfold clampRow; dsimp only; split_ifs <;> omega

theorem moveCursorPos_rollover (v : View) (dx dy : Int)
    (h1 : ((v.lines.getD (clampRow v (v.cy + dy)).toNat []).length : Int) < v.cx + dx)
    (h2 : dy = 0) (h3 : clampRow v (v.cy + dy) + 1 < (v.lines.length : Int)) :
    moveCursorPos v dx dy = (0, clampRow v (v.cy + dy) + 1) := by
  unfold moveCursorPos; dsimp only
  split_ifs <;> (try dsimp only at *) <;> first | rfl | (exfalso; omega)

theorem moveCursorPos_clamp_right (v : View) (dx dy : Int)
    (h1 : ((v.lines.getD (clampRow v (v.cy + dy)).toNat []).length : Int) < v.cx + dx)
    (h2 : ¬(dy = 0 ∧ clampRow v (v.cy + dy) + 1 < (v.lines.length : Int))) :
    moveCursorPos v dx dy
      = (((v.lines.getD (clampRow v (v.cy + dy)).toNat []).length : Int),
          clampRow v (v.cy + dy)) := by
  unfold moveCursorPos; dsimp only
  split_ifs <;> (try dsimp only at *) <;> first | rfl | (exfalso; omega)

theorem moveCursorPos_neg_roll (v : View) (dx dy : Int)
    (h1 : v.cx + dx < 0) (h2 : 0 < clampRow v (v.cy + dy)) :
    moveCursorPos v dx dy
      = (((v.lines.getD (clampRow v (v.cy + dy) - 1).toNat []).length : Int),
          clampRow v (v.cy + dy) - 1) := by
  unfold moveCursorPos; dsimp only
  split_ifs <;> (try dsimp only at *) <;> first | rfl | (exfalso; omega)

theorem moveCursorPos_neg_clamp (v : View) (dx dy : Int)
    (h1 : v.cx + dx < 0) (h2 : ¬ 0 < clampRow v (v.cy + dy)) :
    moveCursorPos v dx dy = (0, clampRow v (v.cy + dy)) := by
  unfold moveCursorPos; dsimp only
  split_ifs <;> (try dsimp only at *) <;> first | rfl | (exfalso; omega)

theorem moveCursorPos_id (v : View) (dx dy : Int)
    (h1 : 0 ≤ v.cx + dx)
    (h2 : v.cx + dx ≤ ((v.lines.getD (clampRow v (v.cy + dy)).toNat []).length : Int)) :
    moveCursorPos v dx dy = (v.cx + dx, clampRow v (v.cy + dy)) := by
  unfold moveCursorPos; dsimp only
  split_ifs <;> (try dsimp only at *) <;> first | rfl | (exfalso; omega)

theorem moveCursorPos_bounds (v : View) (dx dy : Int) (h : v.lines ≠ []) :
    0 ≤ (moveCursorPos v dx dy).2
    ∧ (moveCursorPos v dx dy).2 < (v.lines.length : Int)
    ∧ 0 ≤ (moveCursorPos v dx dy).1
    ∧ (moveCursorPos v dx dy).1
        ≤ ((v.lines.getD (moveCursorPos v dx dy).2.toNat []).length : Int) := by
  have hn : 0 < v.lines.length := List.length_pos.mpr h
  obtain ⟨hy0, hy1⟩ := clampRow_bounds v (v.cy + dy) h
  by_cases h1 : ((v.lines.getD (clampRow v (v.cy + dy)).toNat []).length : Int) < v.cx + dx
  · by_cases h2 : dy = 0 ∧ clampRow v (v.cy + dy) + 1 < (v.lines.length : Int)
    · rw [moveCursorPos_rollover v dx dy h1 h2.1 h2.2]
      dsimp only
      refine ⟨by omega, h2.2, le_refl 0, Int.natCast_nonneg _⟩
    · rw [moveCursorPos_clamp_right v dx dy h1 h2]
      dsimp only
      exact ⟨hy0, hy1, Int.natCast_nonneg _, le_refl _⟩
  · by_cases h3 : v.cx + dx < 0
    · by_cases h4 : 0 < clampRow v (v.cy + dy)
      · rw [moveCursorPos_neg_roll v dx dy h3 h4]
        dsimp only
        exact ⟨by omega, by omega, Int.natCast_nonneg _, le_refl _⟩
      · rw [moveCursorPos_neg_clamp v dx dy h3 h4]
        dsimp only
        exact ⟨hy0, hy1, le_refl 0, Int.natCast_nonneg _⟩
    · rw [moveCursorPos_id v dx dy (by omega) (by omega)]
      dsimp only
      exact ⟨hy0, hy1, by omega, by omega⟩

theorem MoveCursor_pos (v : View) (dx dy : Int) (h : ¬ v.lines.length = 0) :
    (v.MoveCursor dx dy).cx = (moveCursorPos v dx dy).1
    ∧ (v.MoveCursor dx dy).cy = (moveCursorPos v dx dy).2 := by
  unfold View.MoveCursor; rw [if_neg h]; exact ⟨rfl, rfl⟩

theorem MoveCursor_empty (v : View) (dx dy : Int) (h : v.lines.length = 0) :
    (v.MoveCursor dx dy).cx = 0 ∧ (v.MoveCursor dx dy).cy = 0 := by
  unfold View.MoveCursor; rw [if_pos h]; exact ⟨rfl, rfl⟩

theorem boundsInv_moveCursor (v : View) (dx dy : Int) : BoundsInv (v.MoveCursor dx dy) := by
  by_cases h : v.lines = []
  · unfold View.MoveCursor
    rw [if_pos (by simp [h])]
    unfold BoundsInv
    dsimp only
    rw [if_pos h]
    exact ⟨le_refl 0, le_refl 0, rfl⟩
  · have hb := moveCursorPos_bounds v dx dy h
    have hne : ¬ v.lines.length = 0 := by simpa using h
    unfold View.MoveCursor
    rw [if_neg hne]
    unfold BoundsInv
    dsimp only
    rw [if_neg h]
    exact ⟨hb.2.2.1, hb.1, hb.2.1, hb.2.2.2⟩



/-- C4: on a non-empty buffer the candidate row is the current row plus
deltaY clamped to `[0, lineCount-1]`; a candidate column past the row's length
rolls over to column 0 of the next row exactly when the move is purely
horizontal and a next row exists, and is otherwise clamped to the length; a
negative candidate column moves to the previous row's end when a previous row
exists and is clamped to 0 otherwise; in-range columns are taken as is. -/
theorem spec_C4_column_resolution (v : View) (dx dy row lineLen c : Int) (h : v.lines ≠ [])
    (hrow : row = max 0 (min (v.cy + dy) ((v.lines.length : Int) - 1)))
    (hlen : lineLen = ((v.lines.getD row.toNat []).length : Int))
    (hc : c = v.cx + dx) :
    (lineLen < c → dy = 0 → row + 1 < (v.lines.length : Int) →
      (v.MoveCursor dx dy).cx = 0 ∧ (v.MoveCursor dx dy).cy = row + 1)
    ∧ (lineLen < c → ¬(dy = 0 ∧ row + 1 < (v.lines.length : Int)) →
      (v.MoveCursor dx dy).cx = lineLen ∧ (v.MoveCursor dx dy).cy = row)
    ∧ (c < 0 → 0 < row →
      (v.MoveCursor dx dy).cx = ((v.lines.getD (row - 1).toNat []).length : Int)
        ∧ (v.MoveCursor dx dy).cy = row - 1)
    ∧ (c < 0 → row = 0 →
      (v.MoveCursor dx dy).cx = 0 ∧ (v.MoveCursor dx dy).cy = 0)
    ∧ (0 ≤ c → c ≤ lineLen →
      (v.MoveCursor dx dy).cx = c ∧ (v.MoveCursor dx dy).cy = row) := by
  subst hc
  subst hlen
  have hne : ¬ v.lines.length = 0 := by simpa using h
  obtain ⟨hcx, hcy⟩ := MoveCursor_pos v dx dy hne
  have hr := clampRow_eq v (v.cy + dy) h
  rw [← hr] at hrow
  subst hrow
  refine ⟨?_, ?_, ?_, ?_, ?_⟩
  · intro h1 h2 h3
    rw [hcx, hcy, moveCursorPos_rollover v dx dy h1 h2 h3]
    exact ⟨rfl, rfl⟩
  · intro h1 h2
    rw [hcx, hcy, moveCursorPos_clamp_right v dx dy h1 h2]
    exact ⟨rfl, rfl⟩
  · intro h1 h2
    rw [hcx, hcy, moveCursorPos_neg_roll v dx dy h1 h2]
    exact ⟨rfl, rfl⟩
  · intro h1 h2
    rw [hcx, hcy, moveCursorPos_neg_clamp v dx dy h1 (by omega)]
    exact ⟨rfl, h2⟩
  · intro h1 h2
    rw [hcx, hcy, moveCursorPos_id v dx dy h1 h2]
    exact ⟨rfl, rfl⟩

/-- C4 witness: the rollover case evaluated at a concrete two-line buffer. -/
theorem spec_C4_witness :
    ((mkView [[mkCell 'a'], [mkCell 'b', mkCell 'c']] 1 0).MoveCursor 1 0).cx = 0
    ∧ ((mkView [[mkCell 'a'], [mkCell 'b', mkCell 'c']] 1 0).MoveCursor 1 0).cy = 1 := by
  have h := (spec_C4_column_resolution (mkView [[mkCell 'a'], [mkCell 'b', mkCell 'c']] 1 0)
    1 0 0 1 2 (by decide) (by decide) (by decide) (by decide)).1 (by decide) rfl (by decide)
  simpa using h



theorem mergeLines_fields (v : View) (y : Int) :
    (v.mergeLines y).1.cx = v.cx ∧ (v.mergeLines y).1.cy = v.cy
    ∧ (v.mergeLines y).1.Overwrite = v.Overwrite := by
  unfold View.mergeLines; dsimp only; split
  · exact ⟨rfl, rfl, rfl⟩
  · split <;> exact ⟨rfl, rfl, rfl⟩

theorem breakLine_fields (v : View) (x y : Int) :
    (v.breakLine x y).1.cx = v.cx ∧ (v.breakLine x y).1.cy = v.cy
    ∧ (v.breakLine x y).1.Overwrite = v.Overwrite := by
  unfold View.breakLine; dsimp only; split <;> exact ⟨rfl, rfl, rfl⟩

theorem deleteRune_fields (v : View) (x y : Int) :
    (v.deleteRune x y).1.cx = v.cx ∧ (v.deleteRune x y).1.cy = v.cy
    ∧ (v.deleteRune x y).1.Overwrite = v.Overwrite := by
  unfold View.deleteRune; dsimp only; split <;> exact ⟨rfl, rfl, rfl⟩

theorem writeRune_fields (v : View) (x y : Int) (ch : Char) :
    (v.writeRune x y ch).1.cx = v.cx ∧ (v.writeRune x y ch).1.cy = v.cy
    ∧ (v.writeRune x y ch).1.Overwrite = v.Overwrite := by
  unfold View.writeRune; dsimp only; split
  · exact ⟨rfl, rfl, rfl⟩
  · dsimp only; split <;> exact ⟨rfl, rfl, rfl⟩

theorem MoveCursor_fields (v : View) (dx dy : Int) :
    (v.MoveCursor dx dy).lines = v.lines ∧ (v.MoveCursor dx dy).Overwrite = v.Overwrite := by
  unfold View.MoveCursor; split <;> exact ⟨rfl, rfl⟩

theorem clampRow_id (v : View) (y : Int) (h0 : 0 ≤ y) (h1 : y < (v.lines.length : Int)) :
    clampRow v y = y := by
  unfold clampRow; dsimp only; split_ifs <;> omega

theorem breakLine_ok (v : View) (x y : Int) (h0 : 0 ≤ y) (h1 : y < (v.lines.length : Int))
    (hx0 : 0 ≤ x) (hxle : x ≤ ((v.lines.getD y.toNat []).length : Int)) :
    (v.breakLine x y).2 = false
    ∧ (v.breakLine x y).1.lines
        = v.lines.take y.toNat
          ++ [(v.lines.getD y.toNat []).take x.toNat, (v.lines.getD y.toNat []).drop x.toNat]
          ++ v.lines.drop (y.toNat + 1) := by
  unfold View.breakLine; dsimp only
  have hg : ¬(y < 0 ∨ (v.lines.length : Int) ≤ y) := by omega
  rw [if_neg hg]
  refine ⟨rfl, ?_⟩
  dsimp only
  by_cases hlt : x < ((v.lines.getD y.toNat []).length : Int)
  · rw [if_pos hlt]
  · rw [if_neg hlt]
    have hxeq : x.toNat = (v.lines.getD y.toNat []).length := by omega
    dsimp only
    rw [hxeq, List.take_length, List.drop_length]

theorem getD_append_mid (A rest : List (List cell)) (b : List cell) :
    (A ++ b :: rest).getD A.length [] = b := by
  rw [List.getD_eq_getElem?_getD, List.getElem?_append_right (le_refl _)]
  simp

theorem getD_append_mid2 (A rest : List (List cell)) (b c : List cell) :
    (A ++ b :: c :: rest).getD (A.length + 1) [] = c := by
  rw [List.getD_eq_getElem?_getD, List.getElem?_append_right (by omega)]
  have h : A.length + 1 - A.length = 1 := by omega
  rw [h]
  simp

theorem take_getD_drop (l : List (List cell)) (n : Nat) (h : n < l.length) :
    l.take n ++ l.getD n [] :: l.drop (n + 1) = l := by
  rw [← List.set_eq_take_cons_drop _ h, set_getD_self h]



theorem break_then_merge (l : List (List cell)) (n k : Nat) (cur : List cell)
    (l' : List (List cell)) (h : n < l.length) (hcur : cur = l.getD n [])
    (hl' : l' = l.take n ++ [cur.take k, cur.drop k] ++ l.drop (n + 1)) :
    l'.take n ++ [l'.getD n [] ++ l'.getD (n + 1) []] ++ l'.drop (n + 2) = l
    ∧ l'.getD n [] = cur.take k
    ∧ l'.length = l.length + 1 := by
  subst hcur
  subst hl'
  have hA : (l.take n).length = n := by simp [List.length_take]; omega
  have hshape : l.take n ++ [(l.getD n []).take k, (l.getD n []).drop k] ++ l.drop (n + 1)
      = l.take n ++ (l.getD n []).take k :: (l.getD n []).drop k :: l.drop (n + 1) := by
    simp
  rw [hshape]
  have hgd1 : (l.take n ++ (l.getD n []).take k :: (l.getD n []).drop k
        :: l.drop (n + 1)).getD n []
      = (l.getD n []).take k := by
    have hm := getD_append_mid (l.take n)
      ((l.getD n []).drop k :: l.drop (n + 1)) ((l.getD n []).take k)
    rwa [hA] at hm
  have hgd2 : (l.take n ++ (l.getD n []).take k :: (l.getD n []).drop k
        :: l.drop (n + 1)).getD (n + 1) []
      = (l.getD n []).drop k := by
    have hm := getD_append_mid2 (l.take n) (l.drop (n + 1))
      ((l.getD n []).take k) ((l.getD n []).drop k)
    rwa [hA] at hm
  refine ⟨?_, hgd1, ?_⟩
  · rw [hgd1, hgd2, List.take_append_drop]
    rw [List.take_append_eq_append_take, List.drop_append_eq_append_drop, hA]
    have t1 : List.take n (List.take n l) = List.take n l := by
      rw [List.take_take]; simp
    have t2 : n - n = 0 := by omega
    have t3 : List.drop (n + 2) (List.take n l) = [] :=
      List.drop_of_length_le (by rw [hA]; omega)
    have t4 : n + 2 - n = 2 := by omega
    rw [t1, t2, t3, t4]
    have t5 : List.drop 2 ((l.getD n []).take k :: (l.getD n []).drop k :: l.drop (n + 1))
        = l.drop (n + 1) := rfl
    rw [t5]
    simp only [List.take_zero, List.append_nil, List.nil_append]
    have := take_getD_drop l n h
    simpa using this
  · simp [List.length_append, List.length_take, List.length_drop]
    omega



/-- C7: for every buffer, row `y` and column `x` with `0 ≤ x ≤ length(line[y])`
and the cursor at `(x, y)`, `EditNewLine()` followed by `EditDelete(true)` from
column 0 of the resulting next row restores the original lines, the original
line count, and the cursor to `(x, y)`. -/
theorem spec_C7_split_merge (v : View) (h0 : 0 ≤ v.cy) (h1 : v.cy < (v.lines.length : Int))
    (h2 : 0 ≤ v.cx) (h3 : v.cx ≤ ((v.lines.getD v.cy.toNat []).length : Int)) :
    ((v.EditNewLine).EditDelete true).lines = v.lines
    ∧ ((v.EditNewLine).EditDelete true).cx = v.cx
    ∧ ((v.EditNewLine).EditDelete true).cy = v.cy := by
  obtain ⟨hbe, hbl⟩ := breakLine_ok v v.cx v.cy h0 h1 h2 h3
  obtain ⟨hbcx, hbcy, hbo⟩ := breakLine_fields v v.cx v.cy
  have hcx1 : (v.EditNewLine).cx = 0 := by
    unfold View.EditNewLine; dsimp only
  have hcy1 : (v.EditNewLine).cy = v.cy + 1 := by
    unfold View.EditNewLine; dsimp only; rw [hbcy]
  have hlines1 : (v.EditNewLine).lines
      = v.lines.take v.cy.toNat
        ++ [(v.lines.getD v.cy.toNat []).take v.cx.toNat,
            (v.lines.getD v.cy.toNat []).drop v.cx.toNat]
        ++ v.lines.drop (v.cy.toNat + 1) := by
    unfold View.EditNewLine; dsimp only; exact hbl
  have hn : v.cy.toNat < v.lines.length := by omega
  obtain ⟨hsplice, hgd, hlen⟩ := break_then_merge v.lines v.cy.toNat v.cx.toNat
    (v.lines.getD v.cy.toNat []) ((v.EditNewLine).lines) hn rfl hlines1
  have hlen' : (v.EditNewLine).lines.length = v.lines.length + 1 := hlen
  unfold View.EditDelete
  dsimp only
  have c1 : ¬ ((v.EditNewLine).cy < 0) := by rw [hcy1]; omega
  have c2 : ¬ (((v.EditNewLine).lines.length : Int) ≤ (v.EditNewLine).cy) := by
    rw [hcy1, hlen']; push_cast; omega
  have c3 : true = true ∧ (v.EditNewLine).cx ≤ 0 := ⟨rfl, by rw [hcx1]⟩
  have c4 : ¬ ((v.EditNewLine).cy ≤ 0) := by rw [hcy1]; omega
  rw [if_neg c1, if_neg c2, if_pos c3, if_neg c4]
  have hne2 : ¬ (v.EditNewLine).lines.length = 0 := by rw [hlen']; omega
  obtain ⟨mcx, mcy⟩ := MoveCursor_pos (v.EditNewLine) (-1) 0 hne2
  have hclid : clampRow (v.EditNewLine) ((v.EditNewLine).cy + 0) = (v.EditNewLine).cy + 0 :=
    clampRow_id _ _ (by rw [hcy1]; omega) (by rw [hcy1, hlen']; push_cast; omega)
  have harg1 : (v.EditNewLine).cx + (-1) < 0 := by rw [hcx1]; omega
  have harg2 : 0 < clampRow (v.EditNewLine) ((v.EditNewLine).cy + 0) := by
    rw [hclid, hcy1]; omega
  have hmcp := moveCursorPos_neg_roll (v.EditNewLine) (-1) 0 harg1 harg2
  rw [hclid, hcy1] at hmcp
  have harith : v.cy + 1 + 0 - 1 = v.cy := by ring
  rw [harith] at hmcp
  have hml := (MoveCursor_fields (v.EditNewLine) (-1) 0).1
  have hmcx : ((v.EditNewLine).MoveCursor (-1) 0).cx = v.cx := by
    rw [mcx, hmcp]
    dsimp only
    rw [hgd]
    have hkl : (List.take v.cx.toNat (v.lines.getD v.cy.toNat [])).length = v.cx.toNat := by
      rw [List.length_take]; omega
    rw [hkl]
    omega
  have hmcy : ((v.EditNewLine).MoveCursor (-1) 0).cy = v.cy := by
    rw [mcy, hmcp]
  have hidx : (v.EditNewLine).cy - 1 = v.cy := by rw [hcy1]; ring
  rw [hidx]
  have hlen2 : v.cy + 1 < (((v.EditNewLine).MoveCursor (-1) 0).lines.length : Int) := by
    rw [hml, hlen']; push_cast; omega
  obtain ⟨hme, hmll⟩ := mergeLines_merge ((v.EditNewLine).MoveCursor (-1) 0) v.cy h0 hlen2
  obtain ⟨hfx, hfy, hfo⟩ := mergeLines_fields ((v.EditNewLine).MoveCursor (-1) 0) v.cy
  refine ⟨?_, ?_, ?_⟩
  · rw [hmll, hml]
    exact hsplice
  · rw [hfx, hmcx]
  · rw [hfy, hmcy]



theorem getD_set_self (l : List (List cell)) (n : Nat) (a : List cell) (h : n < l.length) :
    (l.set n a).getD n [] = a := by
  have h2 : n < (l.set n a).length := by rw [List.length_set]; omega
  rw [List.getD_eq_getElem _ _ h2, List.getElem_set_self]

theorem insert_shift_mid (line : List cell) (nx : Nat) (c : cell) (h : nx < line.length) :
    (copyShiftRight (line ++ [zeroCell]) nx).set nx c
      = line.take nx ++ c :: line.drop nx := by
  unfold copyShiftRight
  have hlen2 : (line ++ [zeroCell]).length = line.length + 1 := by simp
  have p1 : (line ++ [zeroCell]).take (nx + 1) = line.take (nx + 1) := by
    rw [List.take_append_eq_append_take]
    have e : nx + 1 - line.length = 0 := by omega
    rw [e]
    simp
  have p2 : (line ++ [zeroCell]).drop nx = line.drop nx ++ [zeroCell] := by
    rw [List.drop_append_eq_append_drop]
    have e : nx - line.length = 0 := by omega
    rw [e]
    simp
  have p3 : (line.drop nx ++ [zeroCell]).take ((line ++ [zeroCell]).length - (nx + 1))
      = line.drop nx := by
    rw [hlen2]
    have e : line.length + 1 - (nx + 1) = line.length - nx := by omega
    rw [e, List.take_append_eq_append_take]
    have h5 : (line.drop nx).length = line.length - nx := by simp
    have e2 : line.length - nx - (line.drop nx).length = 0 := by rw [h5]; omega
    rw [e2, List.take_of_length_le (by rw [h5])]
    simp
  rw [p1, p2, p3]
  have hW : nx < (line.take (nx + 1) ++ line.drop nx).length := by
    simp [List.length_take, List.length_drop]
    omega
  rw [List.set_eq_take_cons_drop c hW]
  have hT : (line.take (nx + 1)).length = nx + 1 := by
    simp [List.length_take]; omega
  have q1 : (line.take (nx + 1) ++ line.drop nx).take nx = line.take nx := by
    rw [List.take_append_eq_append_take]
    have e : nx - (line.take (nx + 1)).length = 0 := by rw [hT]; omega
    rw [e, List.take_take]
    simp
  have q2 : (line.take (nx + 1) ++ line.drop nx).drop (nx + 1) = line.drop nx := by
    rw [List.drop_append_eq_append_drop]
    have e1 : List.drop (nx + 1) (line.take (nx + 1)) = [] :=
      List.drop_of_length_le (by rw [hT])
    have e2 : nx + 1 - (line.take (nx + 1)).length = 0 := by rw [hT]; omega
    rw [e1, e2]
    simp
  rw [q1, q2]

theorem insert_shift_end (line : List cell) (c : cell) :
    (copyShiftRight (line ++ [zeroCell]) line.length).set line.length c
      = line ++ [c] := by
  unfold copyShiftRight
  have hlen2 : (line ++ [zeroCell]).length = line.length + 1 := by simp
  have p1 : (line ++ [zeroCell]).take (line.length + 1) = line ++ [zeroCell] :=
    List.take_of_length_le (by rw [hlen2])
  have p3 : ((line ++ [zeroCell]).drop line.length).take
        ((line ++ [zeroCell]).length - (line.length + 1)) = [] := by
    rw [hlen2]
    have e : line.length + 1 - (line.length + 1) = 0 := by omega
    rw [e]
    simp
  rw [p1, p3, List.append_nil]
  have hW : line.length < (line ++ [zeroCell]).length := by rw [hlen2]; omega
  rw [List.set_eq_take_cons_drop c hW]
  have q1 : (line ++ [zeroCell]).take line.length = line := by
    rw [List.take_append_eq_append_take]
    have e : line.length - line.length = 0 := by omega
    rw [e, List.take_length]
    simp
  have q2 : (line ++ [zeroCell]).drop (line.length + 1) = [] :=
    List.drop_of_length_le (by rw [hlen2])
  rw [q1, q2]

theorem writeRune_insert (v : View) (x y : Int) (ch : Char)
    (h0 : 0 ≤ y) (h1 : y < (v.lines.length : Int))
    (h2 : 0 ≤ x) (h3 : x ≤ ((v.lines.getD y.toNat []).length : Int))
    (hcase : v.Overwrite = false ∨ x = ((v.lines.getD y.toNat []).length : Int)) :
    (v.writeRune x y ch).2 = false
    ∧ (v.writeRune x y ch).1.lines
        = v.lines.set y.toNat
            ((v.lines.getD y.toNat []).take x.toNat
              ++ { chr := ch, fgColor := v.FgColor, bgColor := v.BgColor }
                :: (v.lines.getD y.toNat []).drop x.toNat) := by
  unfold View.writeRune
  dsimp only
  have hneg : ¬ (x < 0 ∨ y < 0) := by omega
  rw [if_neg hneg]
  dsimp only
  have hgrow : ¬ (v.lines.length ≤ y.toNat) := by omega
  rw [if_neg hgrow]
  refine ⟨rfl, ?_⟩
  dsimp only
  by_cases hend : (v.lines.getD y.toNat []).length ≤ x.toNat
  · -- x is exactly at the end of the line
    have hxeq : x.toNat = (v.lines.getD y.toNat []).length := by omega
    rw [if_pos hend]
    have e1 : x.toNat - (v.lines.getD y.toNat []).length + 1 = 1 := by omega
    rw [e1, List.replicate_one]
    have hle1 : (v.lines.getD y.toNat []).length ≤ x.toNat + 1 := by omega
    have hcond : (!v.Overwrite || v.Overwrite
        && decide ((v.lines.getD y.toNat []).length ≤ x.toNat + 1)) = true := by
      rw [Bool.or_eq_true, Bool.and_eq_true, decide_eq_true_eq]
      cases hov : v.Overwrite
      · left; rfl
      · right; exact ⟨rfl, hle1⟩
    have e2 : (v.lines.getD y.toNat []).take x.toNat = v.lines.getD y.toNat [] := by
      rw [hxeq, List.take_length]
    have e3 : (v.lines.getD y.toNat []).drop x.toNat = [] := by
      rw [hxeq, List.drop_length]
    rw [if_pos hcond, e2, e3, hxeq, insert_shift_end]
  · -- x is strictly inside the line: insert mode is forced by hcase
    have hov : v.Overwrite = false := by
      rcases hcase with hov | hx
      · exact hov
      · exfalso; omega
    rw [if_neg hend]
    have hib : (!v.Overwrite) = true := by simp [hov]
    rw [if_pos hib]
    have hcond : (!v.Overwrite || v.Overwrite
        && decide ((v.lines.getD y.toNat []).length ≤ x.toNat + 1)) = true := by
      simp [hov]
    rw [if_pos hcond, insert_shift_mid _ _ _ (by omega)]

theorem deleteRune_ok (v : View) (x y : Int)
    (h0 : 0 ≤ x) (h1 : 0 ≤ y) (h2 : y < (v.lines.length : Int))
    (h3 : x < ((v.lines.getD y.toNat []).length : Int)) :
    (v.deleteRune x y).2 = false
    ∧ (v.deleteRune x y).1.lines
        = v.lines.set y.toNat
            ((v.lines.getD y.toNat []).take x.toNat
              ++ (v.lines.getD y.toNat []).drop (x.toNat + 1)) := by
  unfold View.deleteRune
  dsimp only
  have hneg : ¬ (x < 0 ∨ y < 0 ∨ (v.lines.length : Int) ≤ y
      ∨ ((v.lines.getD y.toNat []).length : Int) ≤ x) := by omega
  rw [if_neg hneg]
  exact ⟨rfl, rfl⟩



theorem insert_then_delete (cur : List cell) (nx : Nat) (c : cell) (h : nx ≤ cur.length) :
    (cur.take nx ++ c :: cur.drop nx).take nx ++ (cur.take nx ++ c :: cur.drop nx).drop (nx + 1)
      = cur := by
  have hT : (cur.take nx).length = nx := by simp [List.length_take]; omega
  have t1 : (cur.take nx ++ c :: cur.drop nx).take nx = cur.take nx := by
    rw [List.take_append_eq_append_take]
    have e : nx - (cur.take nx).length = 0 := by rw [hT]; omega
    rw [e, List.take_take]
    simp
  have t2 : (cur.take nx ++ c :: cur.drop nx).drop (nx + 1) = cur.drop nx := by
    rw [List.drop_append_eq_append_drop]
    have e1 : List.drop (nx + 1) (cur.take nx) = [] :=
      List.drop_of_length_le (by rw [hT]; omega)
    have e2 : nx + 1 - (cur.take nx).length = 1 := by rw [hT]; omega
    rw [e1, e2]
    simp
  rw [t1, t2, List.take_append_drop]

theorem insert_length (cur : List cell) (nx : Nat) (c : cell) (h : nx ≤ cur.length) :
    (cur.take nx ++ c :: cur.drop nx).length = cur.length + 1 := by
  simp [List.length_append, List.length_take, List.length_drop]
  omega

/-- C2 (amended): for every state whose cursor is within bounds
(`0 ≤ row < lineCount`, `0 ≤ col ≤ rowLength`) and where Overwrite is off or
the column is at the end of the line, `EditWrite(ch)` followed by
`EditDelete(true)` restores the buffer lines and the cursor position. -/
theorem spec_C2_amended (v : View) (ch : Char)
    (h0 : 0 ≤ v.cy) (h1 : v.cy < (v.lines.length : Int))
    (h2 : 0 ≤ v.cx) (h3 : v.cx ≤ ((v.lines.getD v.cy.toNat []).length : Int))
    (hcase : v.Overwrite = false ∨ v.cx = ((v.lines.getD v.cy.toNat []).length : Int)) :
    ((v.EditWrite ch).EditDelete true).lines = v.lines
    ∧ ((v.EditWrite ch).EditDelete true).cx = v.cx
    ∧ ((v.EditWrite ch).EditDelete true).cy = v.cy := by
  obtain ⟨hwe, hwl⟩ := writeRune_insert v v.cx v.cy ch h0 h1 h2 h3 hcase
  obtain ⟨hwcx, hwcy, hwo⟩ := writeRune_fields v v.cx v.cy ch
  have hxle : v.cx.toNat ≤ (v.lines.getD v.cy.toNat []).length := by omega
  have hWlen : (v.writeRune v.cx v.cy ch).1.lines.length = v.lines.length := by
    rw [hwl]; simp [List.length_set]
  have hWgd : (v.writeRune v.cx v.cy ch).1.lines.getD v.cy.toNat []
      = (v.lines.getD v.cy.toNat []).take v.cx.toNat
        ++ { chr := ch, fgColor := v.FgColor, bgColor := v.BgColor }
          :: (v.lines.getD v.cy.toNat []).drop v.cx.toNat := by
    rw [hwl]; exact getD_set_self _ _ _ (by omega)
  have hnewlen : ((v.writeRune v.cx v.cy ch).1.lines.getD v.cy.toNat []).length
      = (v.lines.getD v.cy.toNat []).length + 1 := by
    rw [hWgd]; exact insert_length _ _ _ hxle
  have hne : ¬ (v.writeRune v.cx v.cy ch).1.lines.length = 0 := by rw [hWlen]; omega
  -- the cursor after EditWrite
  have hclW : clampRow (v.writeRune v.cx v.cy ch).1
        ((v.writeRune v.cx v.cy ch).1.cy + 0)
      = (v.writeRune v.cx v.cy ch).1.cy + 0 :=
    clampRow_id _ _ (by rw [hwcy]; omega) (by rw [hwcy, hWlen]; omega)
  have hidx : (v.writeRune v.cx v.cy ch).1.cy + 0 = v.cy := by rw [hwcy]; ring
  have hmp : moveCursorPos (v.writeRune v.cx v.cy ch).1 1 0
      = ((v.writeRune v.cx v.cy ch).1.cx + 1, v.cy) := by
    rw [moveCursorPos_id _ 1 0 (by rw [hwcx]; omega) ?h2]
    · rw [hclW, hidx]
    · rw [hclW, hidx, hwcx, hnewlen]
      omega
  have hecx : (v.EditWrite ch).cx = v.cx + 1 := by
    show ((v.writeRune v.cx v.cy ch).1.MoveCursor 1 0).cx = v.cx + 1
    rw [(MoveCursor_pos _ 1 0 hne).1, hmp, hwcx]
  have hecy : (v.EditWrite ch).cy = v.cy := by
    show ((v.writeRune v.cx v.cy ch).1.MoveCursor 1 0).cy = v.cy
    rw [(MoveCursor_pos _ 1 0 hne).2, hmp]
  have hel : (v.EditWrite ch).lines = (v.writeRune v.cx v.cy ch).1.lines :=
    (MoveCursor_fields ((v.writeRune v.cx v.cy ch).1) 1 0).1
  -- unfold the backward delete
  unfold View.EditDelete
  dsimp only
  have c1 : ¬ ((v.EditWrite ch).cy < 0) := by rw [hecy]; omega
  have c2 : ¬ (((v.EditWrite ch).lines.length : Int) ≤ (v.EditWrite ch).cy) := by
    rw [hecy, hel, hWlen]; omega
  have c3 : ¬ (true = true ∧ (v.EditWrite ch).cx ≤ 0) := by
    intro hc
    rw [hecx] at hc
    omega
  rw [if_neg c1, if_neg c2, if_neg c3, if_pos rfl]
  have har : (v.EditWrite ch).cx - 1 = v.cx := by rw [hecx]; ring
  rw [har, hecy]
  have hdel := deleteRune_ok (v.EditWrite ch) v.cx v.cy h2 h0
    (by rw [hel, hWlen]; omega)
    (by rw [hel, hnewlen]; omega)
  rw [hdel.1]
  have hff : ¬ (false = true) := Bool.false_ne_true
  rw [if_neg hff]
  have hd1l : ((v.EditWrite ch).deleteRune v.cx v.cy).1.lines = v.lines := by
    rw [hdel.2, hel, hWgd, hwl]
    rw [insert_then_delete _ _ _ hxle, List.set_set]
    exact set_getD_self (by omega)
  obtain ⟨hdx, hdy, hdo⟩ := deleteRune_fields (v.EditWrite ch) v.cx v.cy
  have hdcx : ((v.EditWrite ch).deleteRune v.cx v.cy).1.cx = v.cx + 1 := by rw [hdx, hecx]
  have hdcy : ((v.EditWrite ch).deleteRune v.cx v.cy).1.cy = v.cy := by rw [hdy, hecy]
  have hdne : ¬ ((v.EditWrite ch).deleteRune v.cx v.cy).1.lines.length = 0 := by
    rw [hd1l]; omega
  have hcld : clampRow ((v.EditWrite ch).deleteRune v.cx v.cy).1
        (((v.EditWrite ch).deleteRune v.cx v.cy).1.cy + 0)
      = ((v.EditWrite ch).deleteRune v.cx v.cy).1.cy + 0 :=
    clampRow_id _ _ (by rw [hdcy]; omega) (by rw [hdcy, hd1l]; omega)
  have hidx2 : ((v.EditWrite ch).deleteRune v.cx v.cy).1.cy + 0 = v.cy := by rw [hdcy]; ring
  have hgd2 : ((v.EditWrite ch).deleteRune v.cx v.cy).1.lines.getD v.cy.toNat []
      = v.lines.getD v.cy.toNat [] := by rw [hd1l]
  have hb2 : ((v.EditWrite ch).deleteRune v.cx v.cy).1.cx + (-1)
      ≤ (((((v.EditWrite ch).deleteRune v.cx v.cy).1.lines.getD
          (clampRow ((v.EditWrite ch).deleteRune v.cx v.cy).1
            (((v.EditWrite ch).deleteRune v.cx v.cy).1.cy + 0)).toNat []).length : Int)) := by
    rw [hcld, hidx2, hgd2, hdcx]
    omega
  have hmp2 : moveCursorPos ((v.EditWrite ch).deleteRune v.cx v.cy).1 (-1) 0
      = (v.cx, v.cy) := by
    rw [moveCursorPos_id _ (-1) 0 (by rw [hdcx]; omega) hb2]
    rw [hcld, hidx2, hdcx]
    have harr : v.cx + 1 + (-1) = v.cx := by ring
    rw [harr]
  obtain ⟨fcx, fcy⟩ := MoveCursor_pos ((v.EditWrite ch).deleteRune v.cx v.cy).1 (-1) 0 hdne
  refine ⟨?_, ?_, ?_⟩
  · rw [(MoveCursor_fields _ (-1) 0).1, hd1l]
  · rw [fcx, hmp2]
  · rw [fcy, hmp2]




theorem getD_set_ne (l : List (List cell)) (n i : Nat) (a : List cell) (h : n ≠ i) :
    (l.set n a).getD i [] = l.getD i [] := by
  rw [List.getD_eq_getElem?_getD, List.getD_eq_getElem?_getD, List.getElem?_set_ne h]

theorem getD_append_replicate_empty (l : List (List cell)) (k i : Nat) :
    (l ++ List.replicate k ([] : List cell)).getD i [] = l.getD i [] := by
  rw [List.getD_eq_getElem?_getD, List.getD_eq_getElem?_getD, List.getElem?_append]
  split
  · rfl
  · next hi =>
    have h1 : l[i]? = none := List.getElem?_eq_none (Nat.le_of_not_lt hi)
    have h2 : (List.replicate k ([] : List cell))[i - l.length]?
        = if i - l.length < k then some [] else none := List.getElem?_replicate
    rw [h1, h2]
    split <;> rfl

theorem getD_default (l : List (List cell)) (i : Nat) (h : l.length ≤ i) :
    l.getD i [] = [] := List.getD_eq_default _ _ h

theorem copyShiftRight_last (line : List cell) (nx : Nat) (h1 : nx < line.length)
    (h2 : line.length ≤ nx + 1) :
    copyShiftRight line nx = line := by
  have he : line.length = nx + 1 := by omega
  unfold copyShiftRight
  rw [he]
  have e : nx + 1 - (nx + 1) = 0 := by omega
  rw [e]
  simp only [List.take_zero, List.append_nil]
  exact List.take_of_length_le he.le

theorem pad_write (line : List cell) (nx : Nat) (c : cell) (h : line.length ≤ nx) :
    (copyShiftRight (line ++ List.replicate (nx - line.length + 1) zeroCell) nx).set nx c
      = line ++ List.replicate (nx - line.length) zeroCell ++ [c] := by
  have hlen2 : (line ++ List.replicate (nx - line.length + 1) zeroCell).length = nx + 1 := by
    simp [List.length_replicate]
    omega
  unfold copyShiftRight
  have p1 : (line ++ List.replicate (nx - line.length + 1) zeroCell).take (nx + 1)
      = line ++ List.replicate (nx - line.length + 1) zeroCell :=
    List.take_of_length_le (by rw [hlen2])
  have p3 : ((line ++ List.replicate (nx - line.length + 1) zeroCell).drop nx).take
        ((line ++ List.replicate (nx - line.length + 1) zeroCell).length - (nx + 1)) = [] := by
    rw [hlen2]
    have e : nx + 1 - (nx + 1) = 0 := by omega
    rw [e]
    simp
  rw [p1, p3, List.append_nil]
  have hW : nx < (line ++ List.replicate (nx - line.length + 1) zeroCell).length := by
    rw [hlen2]; omega
  rw [List.set_eq_take_cons_drop c hW]
  have q1 : (line ++ List.replicate (nx - line.length + 1) zeroCell).take nx
      = line ++ List.replicate (nx - line.length) zeroCell := by
    rw [List.take_append_eq_append_take, List.take_of_length_le h, List.take_replicate]
    have e : min (nx - line.length) (nx - line.length + 1) = nx - line.length := by omega
    rw [e]
  have q2 : (line ++ List.replicate (nx - line.length + 1) zeroCell).drop (nx + 1) = [] :=
    List.drop_of_length_le (by rw [hlen2])
  rw [q1, q2]



theorem writeRune_lines_eq (v : View) (x y : Int) (ch : Char) (hx : 0 ≤ x) (hy : 0 ≤ y) :
    (v.writeRune x y ch).1.lines
      = (v.lines ++ List.replicate (y.toNat + 1 - v.lines.length) []).set y.toNat
          (writtenLine (v.lines.getD y.toNat []) x.toNat v.Overwrite
            { chr := ch, fgColor := v.FgColor, bgColor := v.BgColor }) := by
  have hneg : ¬ (x < 0 ∨ y < 0) := by omega
  unfold View.writeRune
  dsimp only
  rw [if_neg hneg]
  dsimp only
  by_cases hgrow : v.lines.length ≤ y.toNat
  · rw [if_pos hgrow]
    dsimp only
    have hvgd : v.lines.getD y.toNat [] = [] := getD_default _ _ hgrow
    have hG : (v.lines ++ List.replicate (y.toNat - v.lines.length + 1) ([] : List cell)).getD
        y.toNat [] = [] := by
      rw [getD_append_replicate_empty]
      exact hvgd
    rw [hG, hvgd]
    have ht : ([] : List cell).length ≤ x.toNat := by simp
    rw [if_pos ht]
    have hcond : (!v.Overwrite || v.Overwrite
        && decide (([] : List cell).length ≤ x.toNat + 1)) = true := by
      cases v.Overwrite <;> simp
    rw [if_pos hcond]
    rw [pad_write [] x.toNat { chr := ch, fgColor := v.FgColor, bgColor := v.BgColor } (by simp)]
    have harr : y.toNat - v.lines.length + 1 = y.toNat + 1 - v.lines.length := by omega
    rw [harr]
    congr 1
    unfold writtenLine
    have hnc : ¬ (v.Overwrite = true ∧ x.toNat < ([] : List cell).length) := by
      intro hc
      simp at hc
    rw [if_neg hnc]
    simp
  · rw [if_neg hgrow]
    dsimp only
    have harr : y.toNat + 1 - v.lines.length = 0 := by omega
    rw [harr, List.replicate_zero, List.append_nil]
    congr 1
    by_cases hin : (v.lines.getD y.toNat []).length ≤ x.toNat
    · rw [if_pos hin]
      have hle1 : (v.lines.getD y.toNat []).length ≤ x.toNat + 1 := by omega
      have hcond : (!v.Overwrite || v.Overwrite
          && decide ((v.lines.getD y.toNat []).length ≤ x.toNat + 1)) = true := by
        rw [Bool.or_eq_true, Bool.and_eq_true, decide_eq_true_eq]
        cases ho : v.Overwrite
        · left; rfl
        · right; exact ⟨rfl, hle1⟩
      rw [if_pos hcond, pad_write _ _ _ hin]
      unfold writtenLine
      have hnc : ¬ (v.Overwrite = true ∧ x.toNat < (v.lines.getD y.toNat []).length) := by
        intro hc
        omega
      rw [if_neg hnc, List.take_of_length_le hin, List.drop_of_length_le hin]
    · rw [if_neg hin]
      cases ho : v.Overwrite
      · have hib : (!false) = true := rfl
        rw [if_pos hib]
        have hcond : (!false || false
            && decide ((v.lines.getD y.toNat []).length ≤ x.toNat + 1)) = true := rfl
        rw [if_pos hcond, insert_shift_mid _ _ _ (by omega)]
        unfold writtenLine
        have hnc : ¬ (false = true ∧ x.toNat < (v.lines.getD y.toNat []).length) := by
          intro hc
          exact absurd hc.1 (by simp)
        rw [if_neg hnc]
        have e : x.toNat - (v.lines.getD y.toNat []).length = 0 := by omega
        rw [e, List.replicate_zero]
        simp
      · have hib : ¬ ((!true) = true) := by simp
        rw [if_neg hib]
        rw [List.append_nil]
        have hcc : true = true ∧ x.toNat < (v.lines.getD y.toNat []).length :=
          ⟨rfl, by omega⟩
        by_cases hsh : (v.lines.getD y.toNat []).length ≤ x.toNat + 1
        · have hd : decide ((v.lines.getD y.toNat []).length ≤ x.toNat + 1) = true :=
            decide_eq_true hsh
          have hcond : (!true || true
              && decide ((v.lines.getD y.toNat []).length ≤ x.toNat + 1)) = true := by
            rw [hd]
            rfl
          rw [if_pos hcond, copyShiftRight_last _ _ (by omega) hsh]
          unfold writtenLine
          rw [if_pos hcc]
        · have hd : decide ((v.lines.getD y.toNat []).length ≤ x.toNat + 1) = false :=
            decide_eq_false hsh
          have hnc : ¬ ((!true || true
              && decide ((v.lines.getD y.toNat []).length ≤ x.toNat + 1)) = true) := by
            rw [hd]
            simp
          rw [if_neg hnc]
          unfold writtenLine
          rw [if_pos hcc]



/-- C5: `writeRune(x, y, ch)` fails with an invalid-point error exactly when
`x < 0` or `y < 0`; otherwise it grows the buffer to `max(lineCount, y+1)`
lines, leaves every other row unchanged, and writes `ch` at column `x` of row
`y`: with Overwrite off or `x` at/past the line end a one-cell gap is opened
(padding the line to length `x+1` when needed), and with Overwrite on and `x`
inside the line the cell is replaced in place with the length unchanged. -/
theorem spec_C5_writeRune (v : View) (x y : Int) (ch : Char) :
    ((v.writeRune x y ch).2 = true ↔ (x < 0 ∨ y < 0))
    ∧ (0 ≤ x → 0 ≤ y →
        (v.writeRune x y ch).1.lines.length = max v.lines.length (y.toNat + 1)
        ∧ (∀ i : Nat, i ≠ y.toNat →
            (v.writeRune x y ch).1.lines.getD i [] = v.lines.getD i [])
        ∧ (v.Overwrite = false ∨ ((v.lines.getD y.toNat []).length : Int) ≤ x →
            (v.writeRune x y ch).1.lines.getD y.toNat []
              = (v.lines.getD y.toNat []).take x.toNat
                ++ List.replicate (x.toNat - (v.lines.getD y.toNat []).length) zeroCell
                ++ { chr := ch, fgColor := v.FgColor, bgColor := v.BgColor }
                  :: (v.lines.getD y.toNat []).drop x.toNat)
        ∧ (v.Overwrite = true → x < ((v.lines.getD y.toNat []).length : Int) →
            (v.writeRune x y ch).1.lines.getD y.toNat []
              = (v.lines.getD y.toNat []).set x.toNat
                  { chr := ch, fgColor := v.FgColor, bgColor := v.BgColor }
            ∧ ((v.writeRune x y ch).1.lines.getD y.toNat []).length
              = (v.lines.getD y.toNat []).length)) := by
  refine ⟨writeRune_err_iff v x y ch, ?_⟩
  intro hx hy
  have hwe := writeRune_lines_eq v x y ch hx hy
  have hGlen : (v.lines ++ List.replicate (y.toNat + 1 - v.lines.length) ([] : List cell)).length
      = max v.lines.length (y.toNat + 1) := by
    simp [List.length_replicate]
    omega
  have hny : y.toNat < (v.lines ++ List.replicate (y.toNat + 1 - v.lines.length)
      ([] : List cell)).length := by
    rw [hGlen]
    omega
  refine ⟨?_, ?_, ?_, ?_⟩
  · rw [hwe, List.length_set, hGlen]
  · intro i hi
    rw [hwe, getD_set_ne _ _ _ _ (fun h => hi h.symm), getD_append_replicate_empty]
  · intro hcase
    rw [hwe, getD_set_self _ _ _ hny]
    unfold writtenLine
    have hnc : ¬ (v.Overwrite = true ∧ x.toNat < (v.lines.getD y.toNat []).length) := by
      rcases hcase with h | h
      · intro hc
        rw [h] at hc
        exact absurd hc.1 (by simp)
      · intro hc
        omega
    rw [if_neg hnc]
  · intro ho hlt
    rw [hwe, getD_set_self _ _ _ hny]
    unfold writtenLine
    have hcc : v.Overwrite = true ∧ x.toNat < (v.lines.getD y.toNat []).length := ⟨ho, by omega⟩
    rw [if_pos hcc]
    exact ⟨rfl, List.length_set _ _ _⟩

/-- C5 witness: the success case and the insert-mode gap evaluated at a
concrete buffer. -/
theorem spec_C5_witness :
    (((mkView [[mkCell 'a', mkCell 'b']] 0 0).writeRune 1 0 'z').2 = true
      ↔ ((1 : Int) < 0 ∨ (0 : Int) < 0))
    ∧ ((mkView [[mkCell 'a', mkCell 'b']] 0 0).writeRune 1 0 'z').1.lines.getD 0 []
        = [mkCell 'a', { chr := 'z', fgColor := 7, bgColor := 0 }, mkCell 'b'] := by
  have h := spec_C5_writeRune (mkView [[mkCell 'a', mkCell 'b']] 0 0) 1 0 'z'
  refine ⟨h.1, ?_⟩
  have h2 := (h.2 (by decide) (by decide)).2.2.1 (Or.inl rfl)
  have e0 : (0 : Int).toNat = 0 := rfl
  have e1 : (1 : Int).toNat = 1 := rfl
  rw [e0, e1] at h2
  rw [h2]
  decide


/-- C2 counterexample: with Overwrite on and the cursor inside the line,
writing replaces a character in place, so the subsequent backward delete does
not restore the original buffer. -/
theorem spec_C2_counterexample :
    ¬ (((cex2.EditWrite 'X').EditDelete true).lines = cex2.lines
        ∧ ((cex2.EditWrite 'X').EditDelete true).cx = cex2.cx
        ∧ ((cex2.EditWrite 'X').EditDelete true).cy = cex2.cy) := by
  decide

/-- C2 witness: the amended round trip evaluated at a concrete in-bounds,
insert-mode state. -/
theorem spec_C2_witness :
    (((mkView [[mkCell 'a', mkCell 'b']] 1 0).EditWrite 'z').EditDelete true).lines
      = (mkView [[mkCell 'a', mkCell 'b']] 1 0).lines
    ∧ (((mkView [[mkCell 'a', mkCell 'b']] 1 0).EditWrite 'z').EditDelete true).cx
      = (mkView [[mkCell 'a', mkCell 'b']] 1 0).cx
    ∧ (((mkView [[mkCell 'a', mkCell 'b']] 1 0).EditWrite 'z').EditDelete true).cy
      = (mkView [[mkCell 'a', mkCell 'b']] 1 0).cy :=
  spec_C2_amended (mkView [[mkCell 'a', mkCell 'b']] 1 0) 'z'
    (by decide) (by decide) (by decide) (by decide) (Or.inl rfl)

/-- C7 witness: the split/merge round trip evaluated at a concrete one-line
buffer with the cursor mid-line. -/
theorem spec_C7_witness :
    (((mkView [[mkCell 'h', mkCell 'i']] 1 0).EditNewLine).EditDelete true).lines
      = (mkView [[mkCell 'h', mkCell 'i']] 1 0).lines
    ∧ (((mkView [[mkCell 'h', mkCell 'i']] 1 0).EditNewLine).EditDelete true).cx
      = (mkView [[mkCell 'h', mkCell 'i']] 1 0).cx
    ∧ (((mkView [[mkCell 'h', mkCell 'i']] 1 0).EditNewLine).EditDelete true).cy
      = (mkView [[mkCell 'h', mkCell 'i']] 1 0).cy :=
  spec_C7_split_merge (mkView [[mkCell 'h', mkCell 'i']] 1 0)
    (by decide) (by decide) (by decide) (by decide)



theorem boundsInv_taint (v : View) (h : BoundsInv v) :
    BoundsInv { v with tainted := true } := by
  unfold BoundsInv at *
  dsimp only at *
  exact h

theorem deleteRune_err_view (v : View) (x y : Int)
    (h : (v.deleteRune x y).2 = true) :
    (v.deleteRune x y).1 = { v with tainted := true } := by
  unfold View.deleteRune at *
  dsimp only at *
  split at h
  · rw [if_pos (by assumption)]
  · simp at h

theorem breakLine_err_view (v : View) (x y : Int)
    (h : y < 0 ∨ (v.lines.length : Int) ≤ y) :
    (v.breakLine x y).1 = { v with tainted := true } := by
  unfold View.breakLine
  dsimp only
  rw [if_pos h]

theorem mergeLines_noop_view (v : View) (y : Int)
    (h1 : ¬ (y < 0 ∨ (v.lines.length : Int) ≤ y))
    (h2 : ¬ (y + 1 < (v.lines.length : Int))) :
    (v.mergeLines y).1 = { v with tainted := true } := by
  unfold View.mergeLines
  dsimp only
  rw [if_neg h1, if_neg h2]

theorem boundsInv_setCursor (v : View) (x y : Int) : BoundsInv (v.SetCursor x y) := by
  unfold View.SetCursor
  by_cases hemp : v.lines.length = 0
  · rw [if_pos hemp]
    unfold BoundsInv
    dsimp only
    rw [if_pos (List.length_eq_zero.mp hemp)]
    exact ⟨le_refl 0, le_refl 0, rfl⟩
  · rw [if_neg hemp]
    have hne : ¬ v.lines = [] := fun he => hemp (by rw [he]; rfl)
    unfold BoundsInv
    dsimp only
    rw [if_neg hne]
    have hn : 0 < v.lines.length := Nat.pos_of_ne_zero hemp
    split_ifs <;> refine ⟨by omega, by omega, by omega, by omega⟩

theorem boundsInv_editWrite (v : View) (ch : Char) : BoundsInv (v.EditWrite ch) :=
  boundsInv_moveCursor ((v.writeRune v.cx v.cy ch).1) 1 0

theorem boundsInv_editNewLine (v : View) (h : BoundsInv v) : BoundsInv (v.EditNewLine) := by
  obtain ⟨hx, hy, hrest⟩ := h
  by_cases hemp : v.lines = []
  · rw [if_pos hemp] at hrest
    have herr : (v.breakLine v.cx v.cy).1 = { v with tainted := true } :=
      breakLine_err_view v v.cx v.cy (by rw [hemp]; right; simpa using hy)
    unfold View.EditNewLine
    rw [herr]
    unfold BoundsInv
    dsimp only
    rw [if_pos hemp]
    exact ⟨le_refl 0, by omega, rfl⟩
  · rw [if_neg hemp] at hrest
    obtain ⟨hcy, hcx⟩ := hrest
    obtain ⟨hbe, hbl⟩ := breakLine_ok v v.cx v.cy hy hcy hx hcx
    obtain ⟨hbcx, hbcy, hbo⟩ := breakLine_fields v v.cx v.cy
    have hn : v.cy.toNat < v.lines.length := by omega
    obtain ⟨hsplice, hgd, hlen⟩ := break_then_merge v.lines v.cy.toNat v.cx.toNat
      (v.lines.getD v.cy.toNat []) ((v.breakLine v.cx v.cy).1.lines) hn rfl hbl
    unfold View.EditNewLine
    unfold BoundsInv
    dsimp only
    rw [if_neg (by
      intro he
      rw [he] at hlen
      simp at hlen)]
    refine ⟨le_refl 0, by rw [hbcy]; omega, ?_, ?_⟩
    · rw [hbcy, hlen]
      omega
    · exact Int.natCast_nonneg _



theorem boundsInv_editDelete (v : View) (back : Bool) (h : BoundsInv v) :
    BoundsInv (v.EditDelete back) := by
  obtain ⟨hx, hy, hrest⟩ := h
  unfold View.EditDelete
  dsimp only
  rw [if_neg (show ¬ (v.cy < 0) by omega)]
  by_cases hstale : (v.lines.length : Int) ≤ v.cy
  · rw [if_pos hstale]
    exact boundsInv_moveCursor v (-1) 0
  · rw [if_neg hstale]
    have hne : v.lines ≠ [] := by
      intro he
      rw [he] at hstale
      simp at hstale
      omega
    rw [if_neg hne] at hrest
    obtain ⟨hcy, hcx⟩ := hrest
    by_cases hb0 : back = true ∧ v.cx ≤ 0
    · rw [if_pos hb0]
      by_cases hy0 : v.cy ≤ 0
      · rw [if_pos hy0]
        exact ⟨hx, hy, by rw [if_neg hne]; exact ⟨hcy, hcx⟩⟩
      · rw [if_neg hy0]
        have hcx0 : v.cx = 0 := by omega
        have hne0 : ¬ v.lines.length = 0 := by simpa using hne
        obtain ⟨mcx, mcy⟩ := MoveCursor_pos v (-1) 0 hne0
        have hclid : clampRow v (v.cy + 0) = v.cy + 0 :=
          clampRow_id _ _ (by omega) (by omega)
        have hmcp := moveCursorPos_neg_roll v (-1) 0 (by omega) (by rw [hclid]; omega)
        rw [hclid] at hmcp
        have har : v.cy + 0 - 1 = v.cy - 1 := by ring
        rw [har] at hmcp
        have hml := (MoveCursor_fields v (-1) 0).1
        have hv1cx : (v.MoveCursor (-1) 0).cx
            = ((v.lines.getD (v.cy - 1).toNat []).length : Int) := by rw [mcx, hmcp]
        have hv1cy : (v.MoveCursor (-1) 0).cy = v.cy - 1 := by rw [mcy, hmcp]
        have hmm := mergeLines_merge (v.MoveCursor (-1) 0) (v.cy - 1) (by omega)
          (by rw [hml]; omega)
        rw [hml] at hmm
        obtain ⟨hfx, hfy, hfo⟩ := mergeLines_fields (v.MoveCursor (-1) 0) (v.cy - 1)
        have hklen : (v.lines.take (v.cy - 1).toNat).length = (v.cy - 1).toNat := by
          simp [List.length_take]
          omega
        have hlenf : (((v.MoveCursor (-1) 0).mergeLines (v.cy - 1)).1.lines).length
            = v.lines.length - 1 := by
          rw [hmm.2]
          simp [List.length_append, List.length_take, List.length_drop]
          omega
        refine ⟨?_, ?_, ?_⟩
        · rw [hfx, hv1cx]
          exact Int.natCast_nonneg _
        · rw [hfy, hv1cy]
          omega
        · rw [if_neg (by
            intro he
            rw [he] at hlenf
            simp at hlenf
            omega)]
          constructor
          · rw [hfy, hv1cy, hlenf]
            omega
          · rw [hfx, hv1cx, hfy, hv1cy, hmm.2]
            have hgetm : (v.lines.take (v.cy - 1).toNat
                ++ [v.lines.getD (v.cy - 1).toNat [] ++ v.lines.getD ((v.cy - 1).toNat + 1) []]
                ++ v.lines.drop ((v.cy - 1).toNat + 2)).getD (v.cy - 1).toNat []
                = v.lines.getD (v.cy - 1).toNat []
                  ++ v.lines.getD ((v.cy - 1).toNat + 1) [] := by
              have hm := getD_append_mid (v.lines.take (v.cy - 1).toNat)
                (v.lines.drop ((v.cy - 1).toNat + 2))
                (v.lines.getD (v.cy - 1).toNat [] ++ v.lines.getD ((v.cy - 1).toNat + 1) [])
              rw [hklen] at hm
              simpa using hm
            rw [hgetm]
            simp [List.length_append]
    · rw [if_neg hb0]
      by_cases hbk : back = true
      · rw [if_pos hbk]
        by_cases hd2 : (v.deleteRune (v.cx - 1) v.cy).2 = true
        · rw [if_pos hd2, deleteRune_err_view v _ _ hd2]
          exact boundsInv_taint v ⟨hx, hy, by rw [if_neg hne]; exact ⟨hcy, hcx⟩⟩
        · rw [if_neg hd2]
          exact boundsInv_moveCursor _ (-1) 0
      · rw [if_neg hbk]
        by_cases heol : v.cx = ((v.lines.getD v.cy.toNat []).length : Int)
        · rw [if_pos heol]
          by_cases hlast : v.cy + 1 < (v.lines.length : Int)
          · obtain ⟨hme, hmlines⟩ := mergeLines_merge v v.cy hy hlast
            obtain ⟨hfx, hfy, hfo⟩ := mergeLines_fields v v.cy
            have hklen : (v.lines.take v.cy.toNat).length = v.cy.toNat := by
              simp [List.length_take]
              omega
            have hlenf : ((v.mergeLines v.cy).1.lines).length = v.lines.length - 1 := by
              rw [hmlines]
              simp [List.length_append, List.length_take, List.length_drop]
              omega
            refine ⟨?_, ?_, ?_⟩
            · rw [hfx]; omega
            · rw [hfy]; omega
            · rw [if_neg (by
                intro he
                rw [he] at hlenf
                simp at hlenf
                omega)]
              constructor
              · rw [hfy, hlenf]
                omega
              · rw [hfx, hfy, hmlines, heol]
                have hgetm : (v.lines.take v.cy.toNat
                    ++ [v.lines.getD v.cy.toNat [] ++ v.lines.getD (v.cy.toNat + 1) []]
                    ++ v.lines.drop (v.cy.toNat + 2)).getD v.cy.toNat []
                    = v.lines.getD v.cy.toNat [] ++ v.lines.getD (v.cy.toNat + 1) [] := by
                  have hm := getD_append_mid (v.lines.take v.cy.toNat)
                    (v.lines.drop (v.cy.toNat + 2))
                    (v.lines.getD v.cy.toNat [] ++ v.lines.getD (v.cy.toNat + 1) [])
                  rw [hklen] at hm
                  simpa using hm
                rw [hgetm]
                simp [List.length_append]
          · rw [mergeLines_noop_view v v.cy (by omega) hlast]
            exact boundsInv_taint v ⟨hx, hy, by rw [if_neg hne]; exact ⟨hcy, hcx⟩⟩
        · rw [if_neg heol]
          have hlt : v.cx < ((v.lines.getD v.cy.toNat []).length : Int) := by omega
          obtain ⟨hde, hdl⟩ := deleteRune_ok v v.cx v.cy hx hy hcy hlt
          obtain ⟨hdx, hdy, hdo⟩ := deleteRune_fields v v.cx v.cy
          have hlenf : ((v.deleteRune v.cx v.cy).1.lines).length = v.lines.length := by
            rw [hdl]
            simp [List.length_set]
          refine ⟨?_, ?_, ?_⟩
          · rw [hdx]; omega
          · rw [hdy]; omega
          · rw [if_neg (by
              intro he
              rw [he] at hlenf
              simp at hlenf
              omega)]
            constructor
            · rw [hdy, hlenf]
              omega
            · rw [hdx, hdy, hdl]
              have hg : (v.lines.set v.cy.toNat ((v.lines.getD v.cy.toNat []).take v.cx.toNat
                  ++ (v.lines.getD v.cy.toNat []).drop (v.cx.toNat + 1))).getD v.cy.toNat []
                  = (v.lines.getD v.cy.toNat []).take v.cx.toNat
                    ++ (v.lines.getD v.cy.toNat []).drop (v.cx.toNat + 1) :=
                getD_set_self _ _ _ (by omega)
              rw [hg]
              have hlen2 : ((v.lines.getD v.cy.toNat []).take v.cx.toNat
                  ++ (v.lines.getD v.cy.toNat []).drop (v.cx.toNat + 1)).length
                  = (v.lines.getD v.cy.toNat []).length - 1 := by
                rw [List.length_append, List.length_take, List.length_drop]
                omega
              rw [hlen2]
              omega



theorem boundsInv_gotoStartLoop : ∀ (n : Nat) (v : View), BoundsInv v
    → BoundsInv (gotoStartLoop n v) := by
  intro n
  induction n with
  | zero => intro v h; exact h
  | succ m ih =>
    intro v h
    unfold gotoStartLoop
    split
    · exact ih _ (boundsInv_moveCursor v (-1) 0)
    · exact h

theorem boundsInv_gotoEndLoop : ∀ (n : Nat) (p : Int) (v : View), BoundsInv v
    → BoundsInv (gotoEndLoop n p v) := by
  intro n
  induction n with
  | zero => intro p v h; exact h
  | succ m ih =>
    intro p v h
    unfold gotoEndLoop
    split
    · exact ih _ _ (boundsInv_moveCursor v 1 0)
    · exact h

theorem boundsInv_deleteToStartLoop : ∀ (n : Nat) (v : View), BoundsInv v
    → BoundsInv (deleteToStartLoop n v) := by
  intro n
  induction n with
  | zero => intro v h; exact h
  | succ m ih =>
    intro v h
    unfold deleteToStartLoop
    split
    · exact ih _ (boundsInv_editDelete v true h)
    · exact h

theorem boundsInv_gotoStart (v : View) (h : BoundsInv v) :
    BoundsInv (v.EditGotoToStartOfLine) :=
  boundsInv_gotoStartLoop _ v h

theorem boundsInv_gotoEnd (v : View) : BoundsInv (v.EditGotoToEndOfLine) := by
  unfold View.EditGotoToEndOfLine
  dsimp only
  split
  · exact boundsInv_gotoEndLoop _ _ _ (boundsInv_setCursor v 0 (v.cy + 1))
  · exact boundsInv_moveCursor _ (-1) 0

theorem boundsInv_deleteToStart (v : View) (h : BoundsInv v) :
    BoundsInv (v.EditDeleteToStartOfLine) := by
  unfold View.EditDeleteToStartOfLine
  split
  · exact boundsInv_editDelete v true h
  · exact boundsInv_deleteToStartLoop _ v h

theorem boundsInv_applyOp (v : View) (op : Op) (h : BoundsInv v) :
    BoundsInv (applyOp v op) := by
  cases op with
  | write ch => exact boundsInv_editWrite v ch
  | delete b => exact boundsInv_editDelete v b h
  | newline => exact boundsInv_editNewLine v h
  | move dx dy => exact boundsInv_moveCursor v dx dy
  | gotoStart => exact boundsInv_gotoStart v h
  | gotoEnd => exact boundsInv_gotoEnd v
  | deleteToStart => exact boundsInv_deleteToStart v h

theorem boundsInv_runOps : ∀ (ops : List Op) (v : View), BoundsInv v
    → BoundsInv (runOps v ops) := by
  intro ops
  induction ops with
  | nil => intro v h; exact h
  | cons op rest ih =>
    intro v h
    exact ih _ (boundsInv_applyOp v op h)

/-- C1 (amended): starting from the initial empty state, after every sequence of
the seven exposed operations the cursor columns and rows are non-negative; on a
non-empty buffer the row is below the line count and the column is at most the
row's line length; on an empty buffer the column is 0, but the row may exceed 0
(each `EditNewLine` against the empty buffer increments it, which refutes the
claim's bound `row < max(1, lineCount)`). -/
theorem spec_C1_amended (ops : List Op) (v0 : View)
    (h1 : v0.lines = []) (h2 : v0.cx = 0) (h3 : v0.cy = 0) :
    BoundsInv (runOps v0 ops) := by
  apply boundsInv_runOps
  exact ⟨by omega, by omega, by rw [if_pos h1]; exact h2⟩

/-- C1 counterexample: from the initial empty state, a single `EditNewLine`
leaves zero lines but moves the cursor to row 1, violating the claimed bound
`cursorRow < max(1, lineCount)`. -/
theorem spec_C1_counterexample :
    (mkView [] 0 0).lines = [] ∧ (mkView [] 0 0).cx = 0 ∧ (mkView [] 0 0).cy = 0
    ∧ ¬ ClaimedBounds (runOps (mkView [] 0 0) [Op.newline]) := by
  refine ⟨rfl, rfl, rfl, ?_⟩
  decide

/-- C1 witness: the amended invariant evaluated on a concrete operation
sequence from the initial empty state. -/
theorem spec_C1_witness :
    BoundsInv (runOps (mkView [] 0 0) [Op.newline, Op.write 'a', Op.move (-1) 0]) :=
  spec_C1_amended [Op.newline, Op.write 'a', Op.move (-1) 0] (mkView [] 0 0) rfl rfl rfl

end Gocui
